import Mathlib

/-!
Verification of the core of the elm-land language server.

This file gives a shallow embedding of the server's pure logic, translated
from the TypeScript sources:

* `src/protocol/transport.ts` — LSP byte-stream framing (`encode`, `tryParse`);
* `src/state/ast-cache.ts` — the LRU AST cache (`getCachedAst`, `setCachedAst`);
* `src/features/workspace-symbol.ts` — fuzzy workspace-symbol search;
* `src/elm-ast/bridge.ts` — the latest-wins parse service state machine;
* `src/elm-ast/types.ts` — the AST data model and its helper functions;
* the reference/rename engine (`collectRefsInFile`, `collectRefsInExpr`,
  `collectRefsInPattern`, `collectRefsInTypeAnnotation`,
  `nameRangeOfQualifiedExpr`, `nameRangeOfExposed`, `resolveSymbolAtPosition`,
  `findReferences`);
* `src/features/definition.ts` — the cross-module resolution step
  (`findInModule`).

Buffers and strings are modelled as `List Char`, one `Char` per byte.
JavaScript array/map operations are modelled by structurally equivalent
list functions.  Machine integers do not overflow in any of the modelled
code paths, so numbers are `Nat`/`Int`.
-/

set_option autoImplicit false

namespace ElmLsp

/-! ## Transport framing (`src/protocol/transport.ts`) -/

/-- `HEADER_SEPARATOR = "\r\n\r\n"`. -/
def sepChars : List Char := ['\r', '\n', '\r', '\n']

/-- `CONTENT_LENGTH = "Content-Length: "`. -/
def clPfx : List Char := "Content-Length: ".toList

/-- `buffer.indexOf(pat)`: index of the first full occurrence of `pat`,
`none` when absent. -/
def findSub (pat : List Char) : List Char → Option Nat
  | [] => if pat.isEmpty then some 0 else none
  | c :: rest =>
    if pat.isPrefixOf (c :: rest) then some 0
    else (findSub pat rest).map (· + 1)

def isWsChar (c : Char) : Bool := c = ' ' || c = '\t' || c = '\n' || c = '\r'

def digitVal (c : Char) : Nat := c.toNat - 48

def digitsToNat (ds : List Char) : Nat :=
  ds.foldl (fun acc c => acc * 10 + digitVal c) 0

/-- JavaScript `parseInt(s, 10)`: skip leading whitespace, optional sign,
then the maximal run of decimal digits; `NaN` (here `none`) when that run
is empty. -/
def jsParseInt (s : List Char) : Option Int :=
  let s1 := s.dropWhile isWsChar
  let neg : Bool := s1.head? = some '-'
  let s2 := if s1.head? = some '-' ∨ s1.head? = some '+' then s1.tail else s1
  let ds := s2.takeWhile Char.isDigit
  if ds.isEmpty then none
  else if neg then some (-(digitsToNat ds : Int))
  else some ((digitsToNat ds : Int))

/-- Decimal digits of `n`, as produced by JavaScript number-to-string
interpolation. -/
def natDigits (n : Nat) : List Char :=
  if h : n < 10 then [Char.ofNat (48 + n)]
  else natDigits (n / 10) ++ [Char.ofNat (48 + n % 10)]
decreasing_by exact Nat.div_lt_self (by omega) (by omega)

/-- `encode(message)`: `Content-Length: N\r\n\r\n` followed by the body.
The body stands for `JSON.stringify(message)`; `Buffer.byteLength(body)`
is its length. -/
def encode (body : List Char) : List Char :=
  clPfx ++ natDigits body.length ++ sepChars ++ body

/-- `tryParse(buffer)`: `none` models the `need-more` result; on success the
pair is the message body (fed to `JSON.parse` by the caller) and the
remainder of the buffer.  `subarray` clamps, hence the `toNat` on lengths. -/
def tryParse (buffer : List Char) : Option (List Char × List Char) :=
  match findSub sepChars buffer with
  | none => none
  | some headerEnd =>
    let header := buffer.take headerEnd
    if ¬ (clPfx.isPrefixOf header) then none
    else
      match jsParseInt (header.drop clPfx.length) with
      | none => none
      | some contentLength =>
        let totalNeeded : Int := (headerEnd + 4 : Nat) + contentLength
        if (buffer.length : Int) < totalNeeded then none
        else
          let body := (buffer.drop (headerEnd + 4)).take contentLength.toNat
          let rest := buffer.drop totalNeeded.toNat
          some (body, rest)

/-- Repeatedly apply `tryParse`, feeding the remainder back in, at most
`fuel` times; returns the drained messages in order and the final
remainder. -/
def drainAll : Nat → List Char → List (List Char) × List Char
  | 0, buf => ([], buf)
  | fuel + 1, buf =>
    match tryParse buf with
    | none => ([], buf)
    | some (m, rest) =>
      let d := drainAll fuel rest
      (m :: d.1, d.2)

/-! ## AST cache (`src/state/ast-cache.ts`) -/

/-- One cache entry; `α` is the AST payload type (`Ast` in the source). -/
structure CacheEntry (α : Type) where
  uri : String
  version : Nat
  ast : α
deriving DecidableEq

/-- `MAX_SIZE = 50`. -/
def MAX_SIZE : Nat := 50

/-- `entries.find` + `splice` at its index: removes the first entry matching
both uri and version, returning it together with the remaining list. -/
def cacheLookup {α : Type} (uri : String) (version : Nat) :
    List (CacheEntry α) → Option (CacheEntry α × List (CacheEntry α))
  | [] => none
  | e :: rest =>
    if e.uri = uri ∧ e.version = version then some (e, rest)
    else
      match cacheLookup uri version rest with
      | none => none
      | some (f, rest') => some (f, e :: rest')

/-- `getCachedAst(uri, version)`: on a hit, the entry is spliced out and
pushed to the end (most-recently-used position). -/
def getCachedAst {α : Type} (entries : List (CacheEntry α)) (uri : String)
    (version : Nat) : Option α × List (CacheEntry α) :=
  match cacheLookup uri version entries with
  | some (e, others) => (some e.ast, others ++ [e])
  | none => (none, entries)

/-- `findIndex` + `splice`: remove the first entry with the given uri. -/
def removeUri {α : Type} (uri : String) :
    List (CacheEntry α) → List (CacheEntry α)
  | [] => []
  | e :: rest => if e.uri = uri then rest else e :: removeUri uri rest

/-- `setCachedAst(uri, version, ast)`: drop any existing entry for the uri,
push the new entry, and `shift` the oldest entry off when the capacity is
exceeded. -/
def setCachedAst {α : Type} (entries : List (CacheEntry α)) (uri : String)
    (version : Nat) (ast : α) : List (CacheEntry α) :=
  let pushed := removeUri uri entries ++ [⟨uri, version, ast⟩]
  if MAX_SIZE < pushed.length then pushed.drop 1 else pushed

/-- The cache invariant: at most `MAX_SIZE` entries, no two for one uri. -/
def cacheInv {α : Type} (entries : List (CacheEntry α)) : Prop :=
  entries.length ≤ MAX_SIZE ∧ (entries.map CacheEntry.uri).Nodup

/-- The entry built by one `setCachedAst(uri, version, ast)` call. -/
def toCacheEntry {α : Type} (it : String × Nat × α) : CacheEntry α :=
  ⟨it.1, it.2.1, it.2.2⟩

/-! ## Workspace-symbol fuzzy search (`src/features/workspace-symbol.ts`) -/

/-- `toLowerCase` on one character (the symbol names are ASCII
identifiers). -/
def jsToLower (c : Char) : Char :=
  if 'A' ≤ c ∧ c ≤ 'Z' then Char.ofNat (c.toNat + 32) else c

def lowerList (s : List Char) : List Char := s.map jsToLower

/-- The scanning loop of `fuzzyMatch`: advance through the name, consuming a
query character on every match; succeed when the query is exhausted. -/
def isSubseqGreedy : List Char → List Char → Bool
  | [], _ => true
  | _ :: _, [] => false
  | a :: as, b :: bs =>
    if a = b then isSubseqGreedy as bs else isSubseqGreedy (a :: as) bs

/-- `fuzzyMatch(query, name)`: case-insensitive greedy subsequence test. -/
def fuzzyMatch (query name : List Char) : Bool :=
  isSubseqGreedy (lowerList query) (lowerList name)

/-- The fields of `SymbolInformation` that the search logic reads. -/
structure SymbolInfo where
  name : List Char
  kind : Nat
  uri : String
deriving DecidableEq

/-- `getWorkspaceSymbols(query)` applied to the extracted symbol set: the
empty query returns everything, otherwise `fuzzyMatch` filters. -/
def getWorkspaceSymbols (query : List Char) (allSymbols : List SymbolInfo) :
    List SymbolInfo :=
  if query.isEmpty then allSymbols
  else allSymbols.filter (fun s => fuzzyMatch query s.name)

/-! ## Parse service (`src/elm-ast/bridge.ts`)

The bridge is a single-consumer state machine.  Requests are numbered in
call order; `posted` records every `worker.postMessage` together with the
generation of the worker object it was sent to (generation `g` = the
worker created by the `g+1`-st call of `initWorker`; module load performs
the only call, so the generation never leaves `0`).  `resolvedWith`
records each promise resolution: `some a` for a successful AST, `none`
for an `undefined` resolution. -/

inductive WState where
  | idle : WState
  | busy (cur : Nat) (queue : List (Nat × String)) : WState
deriving DecidableEq

structure BridgeSys where
  wstate : WState
  gen : Nat
  nextId : Nat
  posted : List (Nat × String)
  resolvedWith : List (Nat × Option Nat)
deriving DecidableEq

/-- The state after module load: `initWorker()` has run once (generation 0)
and `state = { tag: "idle" }`. -/
def initSys : BridgeSys :=
  { wstate := .idle, gen := 0, nextId := 0, posted := [], resolvedWith := [] }

/-- External events: a call of `parse(src)`, a worker reply (`success` with
an AST, or `failure`), or the worker's `onerror`. -/
inductive BridgeEv where
  | callParse (src : String)
  | msgSuccess (ast : Nat)
  | msgFailure
  | workerError
deriving DecidableEq

/-- `worker.onmessage`: resolve the in-flight request (with the AST on
`success`, with `undefined` on `failure`); then dispatch only the latest
queued request, resolving every earlier queued request with `undefined`;
with an empty queue, become idle. -/
def onMsg (s : BridgeSys) (result : Option Nat) : BridgeSys :=
  match s.wstate with
  | .idle => s
  | .busy cur q =>
    match q.getLast? with
    | none =>
      { s with wstate := .idle, resolvedWith := s.resolvedWith ++ [(cur, result)] }
    | some nxt =>
      { s with
          wstate := .busy nxt.1 [],
          resolvedWith :=
            s.resolvedWith ++ [(cur, result)] ++
              q.dropLast.map (fun it => (it.1, (none : Option Nat))),
          posted := s.posted ++ [(s.gen, nxt.2)] }

/-- One step of the bridge.  `callParse` is `parse(source)`: post at once
when idle, otherwise queue.  `workerError` is `worker.onerror`: resolve the
in-flight and every queued request with `undefined` and become idle;
`initWorker` is *not* called again anywhere (the comment in the source
announces a re-init on the next parse request, but no code performs it),
so `gen` never changes. -/
def bridgeStep (s : BridgeSys) : BridgeEv → BridgeSys
  | .callParse src =>
    match s.wstate with
    | .idle =>
      { s with
          wstate := .busy s.nextId [],
          nextId := s.nextId + 1,
          posted := s.posted ++ [(s.gen, src)] }
    | .busy cur q =>
      { s with
          wstate := .busy cur (q ++ [(s.nextId, src)]),
          nextId := s.nextId + 1 }
  | .msgSuccess ast => onMsg s (some ast)
  | .msgFailure => onMsg s none
  | .workerError =>
    match s.wstate with
    | .idle => s
    | .busy cur q =>
      { s with
          wstate := .idle,
          resolvedWith :=
            s.resolvedWith ++ [(cur, (none : Option Nat))] ++
              q.map (fun it => (it.1, (none : Option Nat))) }

/-- Run a sequence of events from the post-load state. -/
def runBridge (evs : List BridgeEv) : BridgeSys := evs.foldl bridgeStep initSys

/-! ## AST data model (`src/elm-ast/types.ts`)

Node ranges are 1-based inclusive `[startRow, startCol, endRow, endCol]`.
Columns are `Int` so the arithmetic of the range helpers matches JavaScript
exactly.  `Node<T>` wrappers whose range no modelled function ever reads
are flattened away. -/

structure ERange where
  startRow : Int
  startCol : Int
  endRow : Int
  endCol : Int
deriving DecidableEq

/-- An LSP position (0-based line and character). -/
structure LspPos where
  line : Int
  character : Int
deriving DecidableEq

/-- An LSP range; `stop` is the `end` field of the source (a Lean keyword). -/
structure LspRange where
  start : LspPos
  stop : LspPos
deriving DecidableEq

structure Location where
  uri : String
  range : LspRange
deriving DecidableEq

/-- `elmRangeToLsp`: 1-based inclusive to 0-based, subtracting one on every
axis. -/
def elmRangeToLsp (r : ERange) : LspRange :=
  ⟨⟨r.startRow - 1, r.startCol - 1⟩, ⟨r.endRow - 1, r.endCol - 1⟩⟩

/-- `positionInRange` / `posInRange`: the LSP position, shifted to 1-based,
lies inside the inclusive AST range. -/
def posInRange (pos : LspPos) (r : ERange) : Bool :=
  let line := pos.line + 1
  let col := pos.character + 1
  if line < r.startRow ∨ line > r.endRow then false
  else if line = r.startRow ∧ col < r.startCol then false
  else if line = r.endRow ∧ col > r.endCol then false
  else true

/-- `Node<string>`. -/
structure NString where
  range : ERange
  val : String
deriving DecidableEq

/-- `TopLevelExpose`; `typeExpose` carries the `(..)` range. -/
inductive TopLevelExpose where
  | functionExpose (name : String)
  | typeOrAliasExpose (name : String)
  | typeExpose (name : String) (openR : ERange)
  | infixExpose (name : String)
deriving DecidableEq

/-- `Node<TopLevelExpose>`. -/
structure NExpose where
  range : ERange
  val : TopLevelExpose
deriving DecidableEq

inductive Exposing where
  | all (range : ERange)
  | explicit (items : List NExpose)
deriving DecidableEq

structure ModuleData where
  moduleName : List String
  exposingList : Exposing
deriving DecidableEq

inductive ModuleKindTag where
  | normalM
  | portM
  | effectM
deriving DecidableEq

structure ImportData where
  moduleName : List String
  moduleNameRange : ERange
  moduleAlias : Option (List String)
  exposingList : Option Exposing
deriving DecidableEq

/-! Type annotations (`TypeAnnotation`); `typed` keeps the range of its
`moduleNameAndName` node, which the reference collector pushes. -/
mutual
inductive NTypeAnn where
  | mk (range : ERange) (val : TypeAnn)
inductive TypeAnn where
  | generic (value : String)
  | typed (mnnRange : ERange) (moduleName : List String) (name : String)
      (args : NTypeAnnList)
  | unit
  | tupled (items : NTypeAnnList)
  | functionTA (left : NTypeAnn) (right : NTypeAnn)
  | record (fields : RecordFieldList)
  | genericRecord (name : NString) (fields : RecordFieldList)
inductive NTypeAnnList where
  | nil
  | cons (hd : NTypeAnn) (tl : NTypeAnnList)
inductive RecordFieldList where
  | nil
  | cons (name : NString) (ta : NTypeAnn) (tl : RecordFieldList)
end

/-! Patterns (`Pattern`). -/
mutual
inductive NPat where
  | mk (range : ERange) (val : Pat)
inductive Pat where
  | allP
  | unitP
  | charP (c : Char)
  | stringP (s : String)
  | hexP (n : Int)
  | intP (n : Int)
  | floatP
  | tupleP (items : NPatList)
  | recordP (fields : List NString)
  | unconsP (hd : NPat) (tl : NPat)
  | listP (items : NPatList)
  | varP (name : String)
  | namedP (moduleName : List String) (name : String) (args : NPatList)
  | asP (pat : NPat) (name : NString)
  | parentisizedP (pat : NPat)
inductive NPatList where
  | nil
  | cons (hd : NPat) (tl : NPatList)
end

/-- `Signature`: a name node and a type annotation. -/
structure Signature where
  name : NString
  typeAnn : NTypeAnn

/-! Expressions (`Expression`), let declarations, case branches, record
setters, and function bodies (`FunctionDeclaration` / `Function_`). -/
mutual
inductive NExpr where
  | mk (range : ERange) (val : Expr)
inductive Expr where
  | unitExpr
  | application (args : NExprList)
  | operatorapplication (op : String) (left : NExpr) (right : NExpr)
  | functionOrValue (moduleName : List String) (name : String)
  | ifBlock (clause : NExpr) (thenE : NExpr) (elseE : NExpr)
  | prefixoperatorE (op : String)
  | operatorE (op : String)
  | hexE (n : Int)
  | integerE (n : Int)
  | floatE
  | negation (e : NExpr)
  | literal (s : String)
  | charLiteral (c : Char)
  | tupled (items : NExprList)
  | listE (items : NExprList)
  | parenthesized (e : NExpr)
  | letE (decls : NLetDeclList) (body : NExpr)
  | caseE (scrut : NExpr) (branches : CaseBranchList)
  | lambda (pats : NPatList) (body : NExpr)
  | recordAccess (e : NExpr) (name : NString)
  | recordAccessFunction (name : String)
  | recordE (setters : SetterList)
  | recordUpdate (name : NString) (setters : SetterList)
  | glsl (s : String)
inductive NExprList where
  | nil
  | cons (hd : NExpr) (tl : NExprList)
inductive SetterList where
  | nil
  | cons (name : NString) (e : NExpr) (tl : SetterList)
inductive FunctionImpl where
  | mk (name : NString) (args : NPatList) (body : NExpr)
inductive FunctionFull where
  | mk (signature : Option Signature) (impl : FunctionImpl)
inductive NLetDecl where
  | mk (range : ERange) (val : LetDecl)
inductive LetDecl where
  | letFunction (f : FunctionFull)
  | letDestructuring (pat : NPat) (e : NExpr)
inductive NLetDeclList where
  | nil
  | cons (hd : NLetDecl) (tl : NLetDeclList)
inductive CaseBranchList where
  | nil
  | cons (pat : NPat) (e : NExpr) (tl : CaseBranchList)
end

def FunctionImpl.name : FunctionImpl → NString
  | .mk n _ _ => n

def FunctionImpl.args : FunctionImpl → NPatList
  | .mk _ a _ => a

def FunctionImpl.body : FunctionImpl → NExpr
  | .mk _ _ b => b

def FunctionFull.signature : FunctionFull → Option Signature
  | .mk s _ => s

def FunctionFull.impl : FunctionFull → FunctionImpl
  | .mk _ i => i

/-- `Node<TypeConstructor>`: node range, name node, argument annotations. -/
structure TypeCtor where
  range : ERange
  name : NString
  args : List NTypeAnn

/-- `Declaration` (documentation and generics, which no modelled function
reads, are omitted; of `infix` only the operator name node is kept). -/
inductive Decl where
  | functionD (f : FunctionFull)
  | typeAliasD (name : NString) (typeAnn : NTypeAnn)
  | typedeclD (name : NString) (ctors : List TypeCtor)
  | portD (sig : Signature)
  | destructuringD (pat : NPat) (e : NExpr)
  | infixDecl (operatorName : NString)

/-- `Node<Declaration>`. -/
structure NDecl where
  range : ERange
  val : Decl

/-- The parsed module (`Ast`); comments are omitted. -/
structure Ast where
  moduleKind : ModuleKindTag
  moduleData : ModuleData
  imports : List ImportData
  declarations : List NDecl

/-- `parts.flatten(".")`. -/
def joinDots (parts : List String) : String := String.intercalate "." parts

/-- `toModuleName`. -/
def toModuleName (ast : Ast) : String := joinDots ast.moduleData.moduleName

/-- `toDeclarationName`. -/
def toDeclarationName : Decl → Option String
  | .functionD f => some f.impl.name.val
  | .typeAliasD n _ => some n.val
  | .typedeclD n _ => some n.val
  | .portD sig => some sig.name.val
  | .infixDecl op => some op.val
  | .destructuringD _ _ => none

/-- `findDeclarationWithName`. -/
def findDeclarationWithName (ast : Ast) (name : String) : Option NDecl :=
  ast.declarations.find? (fun d => toDeclarationName d.val = some name)

/-- First constructor named `name` inside a `typedecl`, with its
declaration (`findCustomTypeVariantWithName`). -/
def findCtorInDecls (name : String) : List NDecl → Option (NDecl × TypeCtor)
  | [] => none
  | d :: rest =>
    match d.val with
    | .typedeclD _ ctors =>
      match ctors.find? (fun c => c.name.val = name) with
      | some c => some (d, c)
      | none => findCtorInDecls name rest
    | _ => findCtorInDecls name rest

def findCustomTypeVariantWithName (ast : Ast) (name : String) :
    Option (NDecl × TypeCtor) :=
  findCtorInDecls name ast.declarations

/-- One iteration of the `isExposedFromModule` loop. -/
def exposeItemMatches (ast : Ast) (name : String) (e : TopLevelExpose) : Bool :=
  match e with
  | .functionExpose n => n = name
  | .typeOrAliasExpose n => n = name
  | .typeExpose n _ =>
    if n = name then true
    else
      match findCustomTypeVariantWithName ast name with
      | some (d, _) => toDeclarationName d.val = some n
      | none => false
  | .infixExpose n => n = name

/-- `isExposedFromModule`: `(..)` exposes everything; an explicit list
exposes each listed name, and a `typeexpose` additionally exposes the
constructors of the type it names. -/
def isExposedFromModule (ast : Ast) (name : String) : Bool :=
  match ast.moduleData.exposingList with
  | .all _ => true
  | .explicit items => items.any (fun it => exposeItemMatches ast name it.val)

/-! ### Import tracker (`createImportTracker`) -/

/-- `explicitExposing` / `aliasMapping` are JavaScript `Map`s; modelled as
association lists where `set` replaces in place and appends fresh keys. -/
structure ImportTracker where
  explicitExposing : List (String × List String)
  unknownImports : List String
  aliasMapping : List (String × List String)

def lookupAssoc (m : List (String × List String)) (k : String) :
    Option (List String) :=
  (m.find? (fun p => p.1 = k)).map Prod.snd

def updateAssoc (m : List (String × List String)) (k : String)
    (v : List String) : List (String × List String) :=
  if m.any (fun p => p.1 = k) then
    m.map (fun p => if p.1 = k then (k, v) else p)
  else m ++ [(k, v)]

def PRELUDE_EXPOSING : List (String × List String) :=
  [("List", ["List"]), ("(::)", ["List"]),
   ("Maybe", ["Maybe"]), ("Just", ["Maybe"]), ("Nothing", ["Maybe"]),
   ("Result", ["Result"]), ("Ok", ["Result"]), ("Err", ["Result"]),
   ("String", ["String"]), ("Char", ["Char"]),
   ("Program", ["Platform"]), ("Cmd", ["Platform.Cmd"]),
   ("Sub", ["Platform.Sub"])]

def PRELUDE_UNKNOWN : List String := ["Basics"]

def PRELUDE_ALIASES : List (String × List String) :=
  [("Cmd", ["Platform.Cmd"]), ("Sub", ["Platform.Sub"])]

/-- The exposed name of one explicit item (`getExposedNameStr` and the
`switch` inside `createImportTracker`). -/
def getExposedNameStr : TopLevelExpose → String
  | .functionExpose n => n
  | .typeOrAliasExpose n => n
  | .typeExpose n _ => n
  | .infixExpose n => n

/-- One explicit exposed item of an import: a `typeexpose` first records the
module as an unknown import, then the name is added to
`explicitExposing`. -/
def trackExposedItem (moduleName : String) (t : ImportTracker)
    (item : NExpose) : ImportTracker :=
  let t1 :=
    match item.val with
    | .typeExpose _ _ => { t with unknownImports := t.unknownImports ++ [moduleName] }
    | _ => t
  let name := getExposedNameStr item.val
  let existing := (lookupAssoc t1.explicitExposing name).getD []
  { t1 with explicitExposing :=
      updateAssoc t1.explicitExposing name (existing ++ [moduleName]) }

/-- One import of the `createImportTracker` loop. -/
def trackImport (t : ImportTracker) (imp : ImportData) : ImportTracker :=
  let moduleName := joinDots imp.moduleName
  let t1 :=
    match imp.moduleAlias with
    | some al =>
      let aliasName := joinDots al
      let existing := (lookupAssoc t.aliasMapping aliasName).getD []
      { t with aliasMapping := updateAssoc t.aliasMapping aliasName (existing ++ [moduleName]) }
    | none => t
  match imp.exposingList with
  | none => t1
  | some (.all _) => { t1 with unknownImports := t1.unknownImports ++ [moduleName] }
  | some (.explicit items) => items.foldl (trackExposedItem moduleName) t1

/-- `createImportTracker`: the prelude seed folded over the imports. -/
def createImportTracker (ast : Ast) : ImportTracker :=
  ast.imports.foldl trackImport
    { explicitExposing := PRELUDE_EXPOSING,
      unknownImports := PRELUDE_UNKNOWN,
      aliasMapping := PRELUDE_ALIASES }

/-! ## Reference engine (the `collectRefs*` family shared by references and
rename) -/

inductive SymKind where
  | valueK
  | typeK
  | ctorK
deriving DecidableEq

/-- `SymbolIdentity`: defining module, bare name, and kind. -/
structure SymbolIdentity where
  defModule : String
  name : String
  kind : SymKind
deriving DecidableEq

/-- `getDeclNameNode`. -/
def getDeclNameNode : Decl → Option NString
  | .functionD f => some f.impl.name
  | .typeAliasD n _ => some n
  | .typedeclD n _ => some n
  | .portD sig => some sig.name
  | _ => none

/-- `nameRangeOfQualifiedExpr`: for `Module.name` the editable name starts
after the dotted qualifier; the trimmed range keeps the expression's rows
and spans exactly the name. -/
def nameRangeOfQualifiedExpr (exprRange : ERange) (moduleParts : List String)
    (name : String) : ERange :=
  let pfx := joinDots moduleParts ++ "."
  let nameStart := exprRange.startCol + (pfx.length : Int)
  ⟨exprRange.startRow, nameStart, exprRange.endRow,
   nameStart + (name.length : Int) - 1⟩

/-- `nameRangeOfExposed`: for an exposing item such as `Foo(..)`, just the
name, not the `(..)` suffix. -/
def nameRangeOfExposed (exposedRange : ERange) (name : String) : ERange :=
  ⟨exposedRange.startRow, exposedRange.startCol, exposedRange.startRow,
   exposedRange.startCol + (name.length : Int) - 1⟩

/-- `tracker.aliasMapping.get(q) ?? [q]`. -/
def aliasResolve (tracker : ImportTracker) (q : String) : List String :=
  (lookupAssoc tracker.aliasMapping q).getD [q]

mutual

/-- `collectRefsInPattern`: `named` constructor patterns matching the target
name push the *whole pattern's* range (qualified occurrences gated through
the alias mapping, unqualified ones through the same-module / explicit /
open-import checks); sub-patterns are walked recursively. -/
def collectRefsInPattern (pat : NPat) (fileUri : String)
    (target : SymbolIdentity) (tracker : ImportTracker)
    (fileModuleName : String) : List Location :=
  match pat with
  | .mk range p =>
    match p with
    | .namedP moduleParts name args =>
      let hit : List Location :=
        if name = target.name then
          if moduleParts.length > 0 then
            let md := joinDots moduleParts
            if target.defModule ∈ aliasResolve tracker md then
              [⟨fileUri, elmRangeToLsp range⟩]
            else []
          else if fileModuleName = target.defModule then
            [⟨fileUri, elmRangeToLsp range⟩]
          else if target.defModule ∈ (lookupAssoc tracker.explicitExposing name).getD [] then
            [⟨fileUri, elmRangeToLsp range⟩]
          else if target.defModule ∈ tracker.unknownImports then
            [⟨fileUri, elmRangeToLsp range⟩]
          else []
        else []
      hit ++ collectRefsInPatList args fileUri target tracker fileModuleName
    | .tupleP items => collectRefsInPatList items fileUri target tracker fileModuleName
    | .unconsP hd tl =>
      collectRefsInPattern hd fileUri target tracker fileModuleName ++
        collectRefsInPattern tl fileUri target tracker fileModuleName
    | .listP items => collectRefsInPatList items fileUri target tracker fileModuleName
    | .asP inner _ => collectRefsInPattern inner fileUri target tracker fileModuleName
    | .parentisizedP inner => collectRefsInPattern inner fileUri target tracker fileModuleName
    | _ => []

def collectRefsInPatList (pats : NPatList) (fileUri : String)
    (target : SymbolIdentity) (tracker : ImportTracker)
    (fileModuleName : String) : List Location :=
  match pats with
  | .nil => []
  | .cons hd tl =>
    collectRefsInPattern hd fileUri target tracker fileModuleName ++
      collectRefsInPatList tl fileUri target tracker fileModuleName

end

mutual

/-- `collectRefsInTypeAnnotation`: a `typed` node matching the target name
pushes the range of its `moduleNameAndName` node, with the same
qualified/unqualified gating; arguments and composite annotations are
walked recursively. -/
def collectRefsInTypeAnnotation (ta : NTypeAnn) (fileUri : String)
    (target : SymbolIdentity) (tracker : ImportTracker)
    (fileModuleName : String) : List Location :=
  match ta with
  | .mk _ t =>
    match t with
    | .typed mnnRange moduleParts name args =>
      let hit : List Location :=
        if name = target.name then
          if moduleParts.length > 0 then
            let md := joinDots moduleParts
            if target.defModule ∈ aliasResolve tracker md then
              [⟨fileUri, elmRangeToLsp mnnRange⟩]
            else []
          else if fileModuleName = target.defModule then
            [⟨fileUri, elmRangeToLsp mnnRange⟩]
          else if target.defModule ∈ (lookupAssoc tracker.explicitExposing name).getD [] then
            [⟨fileUri, elmRangeToLsp mnnRange⟩]
          else if target.defModule ∈ tracker.unknownImports then
            [⟨fileUri, elmRangeToLsp mnnRange⟩]
          else []
        else []
      hit ++ collectRefsInTAList args fileUri target tracker fileModuleName
    | .functionTA l r =>
      collectRefsInTypeAnnotation l fileUri target tracker fileModuleName ++
        collectRefsInTypeAnnotation r fileUri target tracker fileModuleName
    | .tupled items => collectRefsInTAList items fileUri target tracker fileModuleName
    | .record fields => collectRefsInFieldList fields fileUri target tracker fileModuleName
    | .genericRecord _ fields => collectRefsInFieldList fields fileUri target tracker fileModuleName
    | _ => []

def collectRefsInTAList (tas : NTypeAnnList) (fileUri : String)
    (target : SymbolIdentity) (tracker : ImportTracker)
    (fileModuleName : String) : List Location :=
  match tas with
  | .nil => []
  | .cons hd tl =>
    collectRefsInTypeAnnotation hd fileUri target tracker fileModuleName ++
      collectRefsInTAList tl fileUri target tracker fileModuleName

def collectRefsInFieldList (fields : RecordFieldList) (fileUri : String)
    (target : SymbolIdentity) (tracker : ImportTracker)
    (fileModuleName : String) : List Location :=
  match fields with
  | .nil => []
  | .cons _ ta tl =>
    collectRefsInTypeAnnotation ta fileUri target tracker fileModuleName ++
      collectRefsInFieldList tl fileUri target tracker fileModuleName

end

mutual

/-- `collectRefsInExpr`: a `functionOrValue` matching the target name pushes
one Location — the trimmed name range for qualified occurrences (gated
through the alias mapping), the full expression range for unqualified ones
(gated same-module, then explicit exposing, then open imports, the latter
two mutually exclusive) — and every composite expression is walked in
source order, entering patterns only when the target is a constructor. -/
def collectRefsInExpr (expr : NExpr) (fileUri : String)
    (target : SymbolIdentity) (tracker : ImportTracker)
    (fileModuleName : String) : List Location :=
  match expr with
  | .mk range e =>
    match e with
    | .functionOrValue moduleParts name =>
      if name = target.name then
        if moduleParts.length > 0 then
          let md := joinDots moduleParts
          if target.defModule ∈ aliasResolve tracker md then
            [⟨fileUri, elmRangeToLsp (nameRangeOfQualifiedExpr range moduleParts name)⟩]
          else []
        else if fileModuleName = target.defModule then
          [⟨fileUri, elmRangeToLsp range⟩]
        else if target.defModule ∈ (lookupAssoc tracker.explicitExposing name).getD [] then
          [⟨fileUri, elmRangeToLsp range⟩]
        else if target.defModule ∈ tracker.unknownImports then
          [⟨fileUri, elmRangeToLsp range⟩]
        else []
      else []
    | .application args => collectRefsInExprList args fileUri target tracker fileModuleName
    | .operatorapplication _ l r =>
      collectRefsInExpr l fileUri target tracker fileModuleName ++
        collectRefsInExpr r fileUri target tracker fileModuleName
    | .ifBlock c t e2 =>
      collectRefsInExpr c fileUri target tracker fileModuleName ++
        collectRefsInExpr t fileUri target tracker fileModuleName ++
        collectRefsInExpr e2 fileUri target tracker fileModuleName
    | .letE decls body =>
      collectRefsInLetDecls decls fileUri target tracker fileModuleName ++
        collectRefsInExpr body fileUri target tracker fileModuleName
    | .caseE scrut branches =>
      collectRefsInExpr scrut fileUri target tracker fileModuleName ++
        collectRefsInBranches branches fileUri target tracker fileModuleName
    | .lambda pats body =>
      (if target.kind = .ctorK then
        collectRefsInPatList pats fileUri target tracker fileModuleName
      else []) ++
        collectRefsInExpr body fileUri target tracker fileModuleName
    | .parenthesized inner => collectRefsInExpr inner fileUri target tracker fileModuleName
    | .negation inner => collectRefsInExpr inner fileUri target tracker fileModuleName
    | .tupled items => collectRefsInExprList items fileUri target tracker fileModuleName
    | .listE items => collectRefsInExprList items fileUri target tracker fileModuleName
    | .recordAccess inner _ => collectRefsInExpr inner fileUri target tracker fileModuleName
    | .recordE setters => collectRefsInSetters setters fileUri target tracker fileModuleName
    | .recordUpdate _ setters => collectRefsInSetters setters fileUri target tracker fileModuleName
    | _ => []

def collectRefsInExprList (es : NExprList) (fileUri : String)
    (target : SymbolIdentity) (tracker : ImportTracker)
    (fileModuleName : String) : List Location :=
  match es with
  | .nil => []
  | .cons hd tl =>
    collectRefsInExpr hd fileUri target tracker fileModuleName ++
      collectRefsInExprList tl fileUri target tracker fileModuleName

def collectRefsInSetters (ss : SetterList) (fileUri : String)
    (target : SymbolIdentity) (tracker : ImportTracker)
    (fileModuleName : String) : List Location :=
  match ss with
  | .nil => []
  | .cons _ e tl =>
    collectRefsInExpr e fileUri target tracker fileModuleName ++
      collectRefsInSetters tl fileUri target tracker fileModuleName

/-- Let declarations: a let-bound function's body is walked, then (for
constructor targets) its argument patterns; a let destructuring's body is
walked, then (for constructor targets) its pattern. -/
def collectRefsInLetDecls (ds : NLetDeclList) (fileUri : String)
    (target : SymbolIdentity) (tracker : ImportTracker)
    (fileModuleName : String) : List Location :=
  match ds with
  | .nil => []
  | .cons (.mk _ d) tl =>
    (match d with
     | .letFunction (.mk _ (.mk _ fargs fbody)) =>
       collectRefsInExpr fbody fileUri target tracker fileModuleName ++
         (if target.kind = .ctorK then
           collectRefsInPatList fargs fileUri target tracker fileModuleName
         else [])
     | .letDestructuring pat e =>
       collectRefsInExpr e fileUri target tracker fileModuleName ++
         (if target.kind = .ctorK then
           collectRefsInPattern pat fileUri target tracker fileModuleName
         else [])) ++
      collectRefsInLetDecls tl fileUri target tracker fileModuleName

/-- Case branches: for constructor targets the branch pattern is walked,
then the branch body. -/
def collectRefsInBranches (bs : CaseBranchList) (fileUri : String)
    (target : SymbolIdentity) (tracker : ImportTracker)
    (fileModuleName : String) : List Location :=
  match bs with
  | .nil => []
  | .cons pat e tl =>
    (if target.kind = .ctorK then
      collectRefsInPattern pat fileUri target tracker fileModuleName
    else []) ++
      collectRefsInExpr e fileUri target tracker fileModuleName ++
      collectRefsInBranches tl fileUri target tracker fileModuleName

end

/-- The fixed list of prelude modules in `canFileReference`. -/
def preludeModules : List String :=
  ["Basics", "List", "Maybe", "Result", "String", "Char", "Tuple", "Debug",
   "Platform", "Platform.Cmd", "Platform.Sub"]

/-- `canFileReference`: the file's own module, a direct import, an alias, or
a prelude module. -/
def canFileReference (ast : Ast) (target : SymbolIdentity)
    (fileModuleName : String) : Bool :=
  if fileModuleName = target.defModule then true
  else if ast.imports.any (fun imp =>
      joinDots imp.moduleName == target.defModule ||
        (match imp.moduleAlias with
         | some al => joinDots al == target.defModule
         | none => false)) then true
  else target.defModule ∈ preludeModules

/-- The Locations one exposing list contributes: each explicit item whose
name matches the target pushes the name-only range. -/
def exposingRefs (exposing? : Option Exposing) (fileUri : String)
    (target : SymbolIdentity) : List Location :=
  match exposing? with
  | some (.explicit items) =>
    items.flatMap (fun ex =>
      if getExposedNameStr ex.val = target.name then
        [⟨fileUri, elmRangeToLsp (nameRangeOfExposed ex.range target.name)⟩]
      else [])
  | _ => []

/-- The Locations one declaration contributes inside `collectRefsInFile`:
definition name and constructor nodes (in the defining module), the
signature name and (for type targets) signature/alias/constructor/port type
annotations, then the expression walk and (for constructor targets) the
argument patterns. -/
def collectRefsInDecl (d : NDecl) (fileUri : String)
    (target : SymbolIdentity) (tracker : ImportTracker)
    (fileModuleName : String) : List Location :=
  (if fileModuleName = target.defModule then
    (match getDeclNameNode d.val with
     | some nn =>
       if nn.val = target.name then [⟨fileUri, elmRangeToLsp nn.range⟩] else []
     | none => []) ++
      (match d.val with
       | .typedeclD _ ctors =>
         if target.kind = .ctorK then
           ctors.flatMap (fun c =>
             if c.name.val = target.name then
               [⟨fileUri, elmRangeToLsp c.name.range⟩]
             else [])
         else []
       | _ => [])
  else []) ++
  (match d.val with
   | .functionD f =>
     match f.signature with
     | some sig =>
       (if sig.name.val = target.name ∧ fileModuleName = target.defModule then
         [⟨fileUri, elmRangeToLsp sig.name.range⟩]
       else []) ++
         (if target.kind = .typeK then
           collectRefsInTypeAnnotation sig.typeAnn fileUri target tracker fileModuleName
         else [])
     | none => []
   | _ => []) ++
  (match d.val with
   | .typeAliasD _ ta =>
     if target.kind = .typeK then
       collectRefsInTypeAnnotation ta fileUri target tracker fileModuleName
     else []
   | _ => []) ++
  (match d.val with
   | .typedeclD _ ctors =>
     if target.kind = .typeK then
       ctors.flatMap (fun c =>
         c.args.flatMap (fun arg =>
           collectRefsInTypeAnnotation arg fileUri target tracker fileModuleName))
     else []
   | _ => []) ++
  (match d.val with
   | .portD sig =>
     if target.kind = .typeK then
       collectRefsInTypeAnnotation sig.typeAnn fileUri target tracker fileModuleName
     else []
   | _ => []) ++
  (match d.val with
   | .functionD f =>
     collectRefsInExpr f.impl.body fileUri target tracker fileModuleName ++
       (if target.kind = .ctorK then
         collectRefsInPatList f.impl.args fileUri target tracker fileModuleName
       else [])
   | _ => [])

/-- `collectRefsInFile`: nothing when the file cannot reference the target;
otherwise the module-header exposing hits (defining module only), the
import-exposing hits on imports of the defining module, then every
declaration's contributions. -/
def collectRefsInFile (ast : Ast) (fileUri : String)
    (target : SymbolIdentity) (fileModuleName : String) : List Location :=
  let tracker := createImportTracker ast
  if ¬ canFileReference ast target fileModuleName then []
  else
    (if fileModuleName = target.defModule then
      exposingRefs (some ast.moduleData.exposingList) fileUri target
    else []) ++
    ast.imports.flatMap (fun imp =>
      if joinDots imp.moduleName = target.defModule then
        exposingRefs imp.exposingList fileUri target
      else []) ++
    ast.declarations.flatMap (fun d =>
      collectRefsInDecl d fileUri target tracker fileModuleName)

/-! ## Identity resolution at the cursor (`resolveSymbolAtPosition`) -/

/-- The identity of one explicit exposed item of an import of `moduleName`:
kind `type` for `typeOrAlias`/`typeexpose`, `value` otherwise. -/
def exposeIdentity (moduleName : String) : TopLevelExpose → SymbolIdentity
  | .functionExpose n => ⟨moduleName, n, .valueK⟩
  | .typeOrAliasExpose n => ⟨moduleName, n, .typeK⟩
  | .typeExpose n _ => ⟨moduleName, n, .typeK⟩
  | .infixExpose n => ⟨moduleName, n, .valueK⟩

/-- The first explicit item of the first import whose range contains the
position (the leading loop of `resolveSymbolAtPosition`). -/
def findInImportExposing : List ImportData → LspPos → Option SymbolIdentity
  | [], _ => none
  | imp :: rest, pos =>
    match imp.exposingList with
    | some (.explicit items) =>
      match items.find? (fun ex => posInRange pos ex.range) with
      | some ex => some (exposeIdentity (joinDots imp.moduleName) ex.val)
      | none => findInImportExposing rest pos
    | _ => findInImportExposing rest pos

/-- The `unknownImports` loop of `findIdentityInExpr`: the first open-import
module whose AST (resolved and parsed through the environment) declares the
name or a constructor of that name.  `env` stands for
`resolveModuleToFile` + `readFileSync` + `parse`. -/
def findUnknownImportOwner (env : String → Option Ast) (name : String) :
    List String → Option String
  | [] => none
  | m :: rest =>
    match env m with
    | some targetAst =>
      if (findDeclarationWithName targetAst name).isSome ∨
          (findCustomTypeVariantWithName targetAst name).isSome then
        some m
      else findUnknownImportOwner env name rest
    | none => findUnknownImportOwner env name rest

mutual

/-- `findIdentityInExpr`: descend only into sub-expressions whose range
contains the position; at a `functionOrValue`, a qualified name resolves
through the alias mapping (first resolved module, kind `value`), an
unqualified name tries same-file declaration, same-file constructor,
explicit exposing (first module), then the open imports. -/
def findIdentityInExpr (env : String → Option Ast) (expr : NExpr)
    (pos : LspPos) (ast : Ast) (tracker : ImportTracker)
    (currentModule : String) : Option SymbolIdentity :=
  match expr with
  | .mk range e =>
    if ¬ posInRange pos range then none
    else
      match e with
      | .functionOrValue moduleParts name =>
        if moduleParts.length > 0 then
          let q := joinDots moduleParts
          some ⟨(aliasResolve tracker q).headD q, name, .valueK⟩
        else if (findDeclarationWithName ast name).isSome then
          some ⟨currentModule, name, .valueK⟩
        else if (findCustomTypeVariantWithName ast name).isSome then
          some ⟨currentModule, name, .ctorK⟩
        else
          match lookupAssoc tracker.explicitExposing name with
          | some (m :: _) => some ⟨m, name, .valueK⟩
          | _ =>
            match findUnknownImportOwner env name tracker.unknownImports with
            | some m => some ⟨m, name, .valueK⟩
            | none => none
      | .application args => findIdentityInExprList env args pos ast tracker currentModule
      | .operatorapplication _ l r =>
        (findIdentityInExpr env l pos ast tracker currentModule).orElse
          (fun _ => findIdentityInExpr env r pos ast tracker currentModule)
      | .ifBlock c t e2 =>
        ((findIdentityInExpr env c pos ast tracker currentModule).orElse
          (fun _ => findIdentityInExpr env t pos ast tracker currentModule)).orElse
          (fun _ => findIdentityInExpr env e2 pos ast tracker currentModule)
      | .letE decls body =>
        match findIdentityInLetDecls env decls pos ast tracker currentModule with
        | some r => r
        | none => findIdentityInExpr env body pos ast tracker currentModule
      | .caseE scrut branches =>
        match findIdentityInExpr env scrut pos ast tracker currentModule with
        | some r => some r
        | none => findIdentityInBranches env branches pos ast tracker currentModule
      | .lambda _ body => findIdentityInExpr env body pos ast tracker currentModule
      | .parenthesized inner => findIdentityInExpr env inner pos ast tracker currentModule
      | .negation inner => findIdentityInExpr env inner pos ast tracker currentModule
      | .tupled items => findIdentityInExprList env items pos ast tracker currentModule
      | .listE items => findIdentityInExprList env items pos ast tracker currentModule
      | .recordAccess inner _ => findIdentityInExpr env inner pos ast tracker currentModule
      | .recordE setters => findIdentityInSetters env setters pos ast tracker currentModule
      | .recordUpdate _ setters => findIdentityInSetters env setters pos ast tracker currentModule
      | _ => none

def findIdentityInExprList (env : String → Option Ast) (es : NExprList)
    (pos : LspPos) (ast : Ast) (tracker : ImportTracker)
    (currentModule : String) : Option SymbolIdentity :=
  match es with
  | .nil => none
  | .cons hd tl =>
    match findIdentityInExpr env hd pos ast tracker currentModule with
    | some r => some r
    | none => findIdentityInExprList env tl pos ast tracker currentModule

def findIdentityInSetters (env : String → Option Ast) (ss : SetterList)
    (pos : LspPos) (ast : Ast) (tracker : ImportTracker)
    (currentModule : String) : Option SymbolIdentity :=
  match ss with
  | .nil => none
  | .cons _ e tl =>
    match findIdentityInExpr env e pos ast tracker currentModule with
    | some r => some r
    | none => findIdentityInSetters env tl pos ast tracker currentModule

def findIdentityInBranches (env : String → Option Ast) (bs : CaseBranchList)
    (pos : LspPos) (ast : Ast) (tracker : ImportTracker)
    (currentModule : String) : Option SymbolIdentity :=
  match bs with
  | .nil => none
  | .cons _ e tl =>
    match findIdentityInExpr env e pos ast tracker currentModule with
    | some r => some r
    | none => findIdentityInBranches env tl pos ast tracker currentModule

/-- The let-declaration loop of `findIdentityInExpr`: on the first let-bound
function whose node range contains the position the walker *returns* the
result of descending into its body (even when that is `none`);
destructurings are skipped.  `none` here means no let-bound function
contained the position. -/
def findIdentityInLetDecls (env : String → Option Ast) (ds : NLetDeclList)
    (pos : LspPos) (ast : Ast) (tracker : ImportTracker)
    (currentModule : String) : Option (Option SymbolIdentity) :=
  match ds with
  | .nil => none
  | .cons (.mk r d) rest =>
    match d with
    | .letFunction (.mk _ (.mk _ _ fbody)) =>
      if posInRange pos r then
        some (findIdentityInExpr env fbody pos ast tracker currentModule)
      else findIdentityInLetDecls env rest pos ast tracker currentModule
    | _ => findIdentityInLetDecls env rest pos ast tracker currentModule

end

/-- The declaration loop of `resolveSymbolAtPosition`: skip declarations not
containing the position; inside one, try the declaration's own name node
(kind `type` for `typedecl`/`typeAlias`, else `value`), then constructor
name nodes, then the signature name, then the expression walker; on no
result continue with the remaining declarations. -/
def resolveInDecls (env : String → Option Ast) (ast : Ast) (pos : LspPos)
    (tracker : ImportTracker) (currentModule : String) :
    List NDecl → Option SymbolIdentity
  | [] => none
  | d :: rest =>
    if ¬ posInRange pos d.range then
      resolveInDecls env ast pos tracker currentModule rest
    else
      let nameHit : Option SymbolIdentity :=
        match getDeclNameNode d.val with
        | some nn =>
          if posInRange pos nn.range then
            let kind : SymKind :=
              match d.val with
              | .typedeclD _ _ => .typeK
              | .typeAliasD _ _ => .typeK
              | _ => .valueK
            some ⟨currentModule, nn.val, kind⟩
          else none
        | none => none
      match nameHit with
      | some idt => some idt
      | none =>
        let ctorHit : Option SymbolIdentity :=
          match d.val with
          | .typedeclD _ ctors =>
            match ctors.find? (fun c => posInRange pos c.name.range) with
            | some c => some ⟨currentModule, c.name.val, .ctorK⟩
            | none => none
          | _ => none
        match ctorHit with
        | some idt => some idt
        | none =>
          match d.val with
          | .functionD f =>
            let sigHit : Option SymbolIdentity :=
              match f.signature with
              | some sig =>
                if posInRange pos sig.name.range then
                  some ⟨currentModule, sig.name.val, .valueK⟩
                else none
              | none => none
            match sigHit with
            | some idt => some idt
            | none =>
              match findIdentityInExpr env f.impl.body pos ast tracker currentModule with
              | some r => some r
              | none => resolveInDecls env ast pos tracker currentModule rest
          | _ => resolveInDecls env ast pos tracker currentModule rest

/-- `resolveSymbolAtPosition`: the import-exposing loop first, then the
declaration loop.  (There is no module-header exposing step.) -/
def resolveSymbolAtPosition (env : String → Option Ast) (ast : Ast)
    (pos : LspPos) : Option SymbolIdentity :=
  match findInImportExposing ast.imports pos with
  | some idt => some idt
  | none =>
    resolveInDecls env ast pos (createImportTracker ast) (toModuleName ast)
      ast.declarations

/-! ## `findReferences`: whole-workspace sweep, declaration filter, dedup -/

/-- The dedup key: `uri:startLine:startCharacter`. -/
def locKey (l : Location) : String × Int × Int :=
  (l.uri, l.range.start.line, l.range.start.character)

/-- The `seen`-set filter at the end of `findReferences`: keep the first
Location for each key. -/
def dedupGo (seen : List (String × Int × Int)) :
    List Location → List Location
  | [] => []
  | l :: rest =>
    if locKey l ∈ seen then dedupGo seen rest
    else l :: dedupGo (locKey l :: seen) rest

def dedupLocations (ls : List Location) : List Location := dedupGo [] ls

/-- One workspace file as seen by the sweep: its uri and parsed AST. -/
structure WorkspaceFile where
  uri : String
  ast : Ast

/-- The per-file body of the sweep: collect, and when `includeDeclaration`
is false and the file is the defining module, drop Locations starting where
the declaration's name node starts. -/
def sweepFile (f : WorkspaceFile) (target : SymbolIdentity)
    (includeDeclaration : Bool) : List Location :=
  let fileModule := toModuleName f.ast
  let refs := collectRefsInFile f.ast f.uri target fileModule
  if ¬ includeDeclaration ∧ fileModule = target.defModule then
    match (findDeclarationWithName f.ast target.name).bind
        (fun d => getDeclNameNode d.val) with
    | some nn =>
      let declRange := elmRangeToLsp nn.range
      refs.filter (fun ref =>
        ¬ (ref.range.start.line = declRange.start.line ∧
           ref.range.start.character = declRange.start.character))
    | none => refs
  else refs

/-- `findReferences`, from the resolved identity on: sweep every reachable
file, then deduplicate by `(uri, startLine, startCharacter)`. -/
def findReferencesFromIdentity (files : List WorkspaceFile)
    (target : SymbolIdentity) (includeDeclaration : Bool) : List Location :=
  dedupLocations (files.flatMap (fun f => sweepFile f target includeDeclaration))

/-! ## Goto-definition cross-module step (`findInModule`,
`src/features/definition.ts`) -/

/-- `findInModule(moduleName, name)` after the target module has been
resolved and parsed (`targetUri`/`targetAst`): gate on the target's own
exposing list, then the first declaration of that name — returning the
*declaring node's* range — else the first constructor of that name —
returning the constructor node's range. -/
def findInModuleModel (targetUri : String) (targetAst : Ast)
    (name : String) : Option Location :=
  if ¬ isExposedFromModule targetAst name then none
  else
    match findDeclarationWithName targetAst name with
    | some d => some ⟨targetUri, elmRangeToLsp d.range⟩
    | none =>
      match findCustomTypeVariantWithName targetAst name with
      | some (_, ctor) => some ⟨targetUri, elmRangeToLsp ctor.range⟩
      | none => none


/-! ### Concrete fixtures for counterexample and witness theorems -/

/-- The empty module-resolution environment: no module resolves to a file. -/
def env0 : String → Option Ast := fun _ => none

/-- Module `Foo` exposing `bar` explicitly from its own header (item at
columns 21-23 of line 1), with `bar` declared on lines 3-4. -/
def c3Ast : Ast :=
  { moduleKind := .normalM,
    moduleData :=
      { moduleName := ["Foo"],
        exposingList := .explicit [⟨⟨1, 21, 1, 23⟩, .functionExpose "bar"⟩] },
    imports := [],
    declarations :=
      [⟨⟨3, 1, 4, 10⟩,
        .functionD (.mk none (.mk ⟨⟨3, 1, 3, 3⟩, "bar"⟩ .nil
          ⟨⟨4, 5, 4, 10⟩, .integerE 1⟩))⟩] }

/-- A cursor inside the header's `bar` exposing item: 0-based (0, 21) is
1-based (1, 22). -/
def c3Pos : LspPos := ⟨0, 21⟩

/-- Module `M` exposing everything, with a function `f` whose declaration
node spans lines 3-4 but whose name node is only columns 1-2 of line 3. -/
def c6Ast : Ast :=
  { moduleKind := .normalM,
    moduleData := { moduleName := ["M"], exposingList := .all ⟨1, 18, 1, 21⟩ },
    imports := [],
    declarations :=
      [⟨⟨3, 1, 4, 10⟩,
        .functionD (.mk none (.mk ⟨⟨3, 1, 3, 2⟩, "f"⟩ .nil
          ⟨⟨4, 5, 4, 10⟩, .integerE 1⟩))⟩] }

/-- The constructor identity targeted by the C1 counterexample. -/
def c1Target : SymbolIdentity := ⟨"M", "MyCtor", .ctorK⟩

/-- Module `M` with `f = case x of MyCtor y -> y`; the `MyCtor y` pattern
node spans columns 5-16 of line 5 while the constructor name is only six
characters long. -/
def c1Ast : Ast :=
  { moduleKind := .normalM,
    moduleData := { moduleName := ["M"], exposingList := .all ⟨1, 18, 1, 21⟩ },
    imports := [],
    declarations :=
      [⟨⟨3, 1, 5, 20⟩,
        .functionD (.mk none (.mk ⟨⟨3, 1, 3, 2⟩, "f"⟩ .nil
          ⟨⟨4, 5, 5, 20⟩,
            .caseE ⟨⟨4, 10, 4, 10⟩, .functionOrValue [] "x"⟩
              (.cons ⟨⟨5, 5, 5, 16⟩, .namedP [] "MyCtor"
                  (.cons ⟨⟨5, 13, 5, 13⟩, .varP "y"⟩ .nil)⟩
                ⟨⟨5, 20, 5, 20⟩, .functionOrValue [] "y"⟩ .nil)⟩))⟩] }

/-- An import tracker with no entries at all (no prelude), for isolating
single collector calls. -/
def emptyTracker : ImportTracker := ⟨[], [], []⟩


/-! # Theorems -/

/-! ## Parse service: C4 and C5 -/

/-- C4: if `parse(s1)` is in flight and `parse(s2)`, `parse(s3)` are queued
before it completes, then `parse(s2)` (request 1) resolves with none,
`parse(s3)` is dispatched after `s1` completes, and the backend receives
exactly two requests in total: `s1` followed by `s3`. -/
theorem C4_parse_latest_wins (s1 s2 s3 : String) (a : Nat) :
    (runBridge [.callParse s1, .callParse s2, .callParse s3,
      .msgSuccess a]).posted.map Prod.snd = [s1, s3] ∧
    (runBridge [.callParse s1, .callParse s2, .callParse s3,
      .msgSuccess a]).resolvedWith = [(0, some a), (1, none)] ∧
    (runBridge [.callParse s1, .callParse s2, .callParse s3,
      .msgSuccess a]).wstate = .busy 2 [] :=
  ⟨rfl, rfl, rfl⟩

/-- C5 (code evaluated at the failing event sequence): after a worker crash
with `s1` in flight and `s2`, `s3` queued, every outstanding request does
resolve with none (the claim's first half, and `initWorker`'s own intent
comment), but the next `parse(s4)` posts its source to the *same*
generation-0 worker object that crashed: no `initWorker` call ever happens
after module load, so no fresh backend is started, contradicting the
claim's second half. -/
theorem C5_crash_no_restart (s1 s2 s3 s4 : String) :
    (runBridge [.callParse s1, .callParse s2, .callParse s3, .workerError,
      .callParse s4]).resolvedWith = [(0, none), (1, none), (2, none)] ∧
    (runBridge [.callParse s1, .callParse s2, .callParse s3, .workerError,
      .callParse s4]).posted = [(0, s1), (0, s4)] ∧
    (runBridge [.callParse s1, .callParse s2, .callParse s3, .workerError,
      .callParse s4]).gen = 0 :=
  ⟨rfl, rfl, rfl⟩

/-! ## AST cache: C8 -/

theorem removeUri_of_not_mem {A : Type} (uri : String)
    (es : List (CacheEntry A)) (h : uri ∉ es.map CacheEntry.uri) :
    removeUri uri es = es := by
  induction es with
  | nil => rfl
  | cons e rest ih =>
    simp only [List.map_cons, List.mem_cons] at h
    push_neg at h
    simp only [removeUri]
    rw [if_neg (fun hh => h.1 hh.symm), ih h.2]

theorem removeUri_sublist {A : Type} (uri : String)
    (es : List (CacheEntry A)) : List.Sublist (removeUri uri es) es := by
  induction es with
  | nil => exact List.Sublist.refl _
  | cons e rest ih =>
    simp only [removeUri]
    split
    · exact List.sublist_cons_self e rest
    · exact List.cons_sublist_cons.mpr ih

theorem removeUri_not_mem {A : Type} (uri : String)
    (es : List (CacheEntry A)) (h : (es.map CacheEntry.uri).Nodup) :
    uri ∉ (removeUri uri es).map CacheEntry.uri := by
  induction es with
  | nil => simp [removeUri]
  | cons e rest ih =>
    simp only [List.map_cons, List.nodup_cons] at h
    simp only [removeUri]
    split
    · rename_i he
      intro hmem
      exact h.1 (he ▸ hmem)
    · rename_i he
      simp only [List.map_cons, List.mem_cons]
      push_neg
      exact ⟨fun hh => he hh.symm, ih h.2⟩

theorem cacheLookup_perm {A : Type} (u : String) (v : Nat) :
    ∀ (es : List (CacheEntry A)) (e : CacheEntry A)
      (others : List (CacheEntry A)),
      cacheLookup u v es = some (e, others) → es.Perm (e :: others) := by
  intro es
  induction es with
  | nil => intro e others h; simp [cacheLookup] at h
  | cons e0 rest ih =>
    intro e others h
    simp only [cacheLookup] at h
    split at h
    · simp only [Option.some.injEq, Prod.mk.injEq] at h
      obtain ⟨rfl, rfl⟩ := h
      exact List.Perm.refl _
    · split at h
      · exact absurd h (by simp)
      · rename_i f rest' hrec
        simp only [Option.some.injEq, Prod.mk.injEq] at h
        obtain ⟨rfl, rfl⟩ := h
        exact ((ih _ _ hrec).cons e0).trans (List.Perm.swap f e0 rest')

/-- The 51-distinct-inserts lemma: starting from the empty cache, inserting
entries with pairwise distinct uris keeps, in order, the most recent
`MAX_SIZE` of them. -/
theorem insertAll_fresh {A : Type} :
    ∀ (items : List (String × Nat × A)),
      (items.map Prod.fst).Nodup →
      items.foldl (fun acc it => setCachedAst acc it.1 it.2.1 it.2.2) [] =
        (items.map toCacheEntry).drop (items.length - MAX_SIZE) := by
  intro items
  induction items using List.reverseRecOn with
  | nil => intro _; rfl
  | append_singleton xs x ih =>
    intro hnd
    have hxs : (xs.map Prod.fst).Nodup :=
      hnd.sublist ((List.prefix_append xs [x]).sublist.map Prod.fst)
    have hxnot : x.1 ∉ xs.map Prod.fst := by
      have hsp := hnd
      simp only [List.map_append, List.map_cons, List.map_nil,
        List.nodup_append] at hsp
      intro hmem
      exact hsp.2.2 hmem (List.mem_singleton_self x.1)
    rw [List.foldl_append, List.foldl_cons, List.foldl_nil, ih hxs]
    have hmapuri : (xs.map toCacheEntry).map CacheEntry.uri = xs.map Prod.fst := by
      rw [List.map_map]
      rfl
    have hxnotE : x.1 ∉
        ((xs.map toCacheEntry).drop (xs.length - MAX_SIZE)).map CacheEntry.uri := by
      intro hmem
      apply hxnot
      rw [← hmapuri]
      exact ((List.drop_sublist _ _).map CacheEntry.uri).mem hmem
    show setCachedAst _ x.1 x.2.1 x.2.2 = _
    unfold setCachedAst
    rw [removeUri_of_not_mem _ _ hxnotE]
    by_cases hlen : xs.length + 1 ≤ MAX_SIZE
    · have h0 : xs.length - MAX_SIZE = 0 := by omega
      have h0' : (xs ++ [x]).length - MAX_SIZE = 0 := by
        simp only [List.length_append, List.length_cons, List.length_nil]
        omega
      rw [h0, h0']
      simp only [List.drop_zero]
      rw [if_neg (by
        simp only [List.length_append, List.length_map, List.length_cons,
          List.length_nil]
        omega)]
      simp [toCacheEntry]
    · push_neg at hlen
      have hk : xs.length - MAX_SIZE ≤ (xs.map toCacheEntry).length := by
        simp only [List.length_map]
        omega
      have hklen : ((xs.map toCacheEntry).drop (xs.length - MAX_SIZE)).length
          = MAX_SIZE := by
        simp only [List.length_drop, List.length_map]
        omega
      rw [if_pos (by
        simp only [List.length_append, hklen, List.length_cons, List.length_nil]
        omega)]
      rw [← List.drop_append_of_le_length hk, List.drop_drop]
      have hrhs : (xs ++ [x]).map toCacheEntry
          = xs.map toCacheEntry ++ [toCacheEntry x] := by
        simp [toCacheEntry]
      rw [hrhs]
      congr 1
      simp only [List.length_append, List.length_cons, List.length_nil]
      omega

theorem setCachedAst_inv {A : Type} (es : List (CacheEntry A)) (u : String)
    (v : Nat) (a : A) (h : cacheInv es) : cacheInv (setCachedAst es u v a) := by
  obtain ⟨hlen, hnd⟩ := h
  have hrsub := removeUri_sublist u es
  have hrlen : (removeUri u es).length ≤ es.length := hrsub.length_le
  have hrnd : ((removeUri u es).map CacheEntry.uri).Nodup :=
    hnd.sublist (hrsub.map CacheEntry.uri)
  have hx := removeUri_not_mem u es hnd
  have hpnd : ((removeUri u es ++ [(⟨u, v, a⟩ : CacheEntry A)]).map
      CacheEntry.uri).Nodup := by
    simp only [List.map_append, List.map_cons, List.map_nil,
      List.nodup_append, List.nodup_cons, List.nodup_nil, and_true,
      List.not_mem_nil, not_false_iff]
    refine ⟨hrnd, by simp, ?_⟩
    intro y hy
    simp only [List.mem_cons, List.not_mem_nil, or_false]
    intro hyu
    exact hx (hyu ▸ hy)
  have hset : setCachedAst es u v a =
      if MAX_SIZE < (removeUri u es ++ [(⟨u, v, a⟩ : CacheEntry A)]).length
      then (removeUri u es ++ [(⟨u, v, a⟩ : CacheEntry A)]).drop 1
      else removeUri u es ++ [(⟨u, v, a⟩ : CacheEntry A)] := rfl
  rw [cacheInv, hset]
  split
  · rename_i hgt
    constructor
    · simp only [List.length_drop, List.length_append, List.length_cons,
        List.length_nil] at hgt ⊢
      omega
    · exact hpnd.sublist ((List.drop_sublist 1 _).map CacheEntry.uri)
  · rename_i hle
    push_neg at hle
    exact ⟨hle, hpnd⟩

theorem getCachedAst_inv {A : Type} (es : List (CacheEntry A)) (u : String)
    (v : Nat) (h : cacheInv es) : cacheInv (getCachedAst es u v).2 := by
  obtain ⟨hlen, hnd⟩ := h
  unfold getCachedAst
  split
  · rename_i e others hrec
    have hperm : es.Perm (e :: others) := cacheLookup_perm u v es e others hrec
    have hperm2 : es.Perm (others ++ [e]) :=
      hperm.trans (List.perm_append_singleton e others).symm
    constructor
    · rw [← hperm2.length_eq]; exact hlen
    · exact ((hperm2.map CacheEntry.uri).nodup_iff).mp hnd
  · exact ⟨hlen, hnd⟩

/-- C8: from the empty cache, 51 inserts with distinct uris leave exactly
the last 50 entries (the least-recently-used first insert is the one
evicted); `setCachedAst` and `getCachedAst` preserve the capacity-50 and
one-entry-per-uri invariant; a put replaces that uri's entry (the result
holds exactly one entry for the uri, at most-recently-used position); a
successful get returns the cached AST and moves its entry to the
most-recently-used (last) position, keeping the entries a permutation. -/
theorem C8_ast_cache_lru {A : Type} (items : List (String × Nat × A))
    (es : List (CacheEntry A)) (u : String) (v : Nat) (a : A) :
    (items.length = 51 → (items.map Prod.fst).Nodup →
      items.foldl (fun acc it => setCachedAst acc it.1 it.2.1 it.2.2) [] =
        (items.drop 1).map toCacheEntry) ∧
    (cacheInv es → cacheInv (setCachedAst es u v a)) ∧
    (cacheInv es → cacheInv (getCachedAst es u v).2) ∧
    ((es.map CacheEntry.uri).Nodup →
      ((setCachedAst es u v a).map CacheEntry.uri).count u = 1 ∧
      (setCachedAst es u v a).getLast? = some ⟨u, v, a⟩) ∧
    (∀ (e : CacheEntry A) (others : List (CacheEntry A)),
      cacheLookup u v es = some (e, others) →
      (getCachedAst es u v).1 = some e.ast ∧
      (getCachedAst es u v).2 = others ++ [e] ∧ es.Perm (others ++ [e])) := by
  refine ⟨?_, setCachedAst_inv es u v a, getCachedAst_inv es u v, ?_, ?_⟩
  · intro h51 hnd
    rw [insertAll_fresh items hnd, h51]
    simp [MAX_SIZE, List.map_drop]
  · intro hnd
    have hx := removeUri_not_mem u es hnd
    have hcount : ((removeUri u es ++ [(⟨u, v, a⟩ : CacheEntry A)]).map
        CacheEntry.uri).count u = 1 := by
      simp only [List.map_append, List.map_cons, List.map_nil,
        List.count_append]
      rw [List.count_eq_zero_of_not_mem hx]
      simp
    have hset : setCachedAst es u v a =
        if MAX_SIZE < (removeUri u es ++ [(⟨u, v, a⟩ : CacheEntry A)]).length
        then (removeUri u es ++ [(⟨u, v, a⟩ : CacheEntry A)]).drop 1
        else removeUri u es ++ [(⟨u, v, a⟩ : CacheEntry A)] := rfl
    rw [hset]
    constructor
    · split
      · rename_i hgt
        match hre : removeUri u es with
        | [] =>
          rw [hre] at hgt
          simp [MAX_SIZE] at hgt
        | e0 :: r' =>
          rw [hre] at hcount
          simp only [List.cons_append, List.drop_succ_cons, List.drop_zero]
          simp only [List.cons_append, List.map_cons, List.count_cons,
            List.map_append, List.count_append, List.map_nil, List.count_nil,
            beq_self_eq_true, if_true] at hcount ⊢
          omega
      · exact hcount
    · split
      · rename_i hgt
        match hre : removeUri u es with
        | [] =>
          rw [hre] at hgt
          simp [MAX_SIZE] at hgt
        | e0 :: r' =>
          simp
      · simp
  · intro e others hrec
    have hperm : es.Perm (e :: others) := cacheLookup_perm u v es e others hrec
    refine ⟨?_, ?_, hperm.trans (List.perm_append_singleton e others).symm⟩
    · unfold getCachedAst
      rw [hrec]
    · unfold getCachedAst
      rw [hrec]

/-- Witness for C8 at a concrete input: 51 entries with distinct uris. -/
theorem C8_ast_cache_lru_witness :
    ((List.range 51).map (fun i => (toString i, 0, i))).foldl
        (fun acc it => setCachedAst acc it.1 it.2.1 it.2.2) [] =
      (((List.range 51).map (fun i => (toString i, 0, i))).drop 1).map
        toCacheEntry :=
  (C8_ast_cache_lru ((List.range 51).map (fun i => (toString i, 0, i)))
    [] "0" 0 0).1 (by decide) (by decide)

/-! ## Workspace-symbol search: C9 -/

theorem isSubseqGreedy_of_sublist :
    ∀ (n q : List Char), List.Sublist q n → isSubseqGreedy q n = true := by
  intro n
  induction n with
  | nil =>
    intro q h
    rw [List.sublist_nil.mp h]
    rfl
  | cons b bs ih =>
    intro q h
    match q with
    | [] => rfl
    | a :: as =>
      rcases List.sublist_cons_iff.mp h with h' | ⟨r, hq, hr⟩
      · by_cases hab : a = b
        · simp only [isSubseqGreedy, if_pos hab]
          exact ih as ((List.sublist_cons_self a as).trans h')
        · simp only [isSubseqGreedy, if_neg hab]
          exact ih (a :: as) h'
      · obtain ⟨rfl, rfl⟩ : a = b ∧ as = r := by
          injection hq with h1 h2; exact ⟨h1, h2 ▸ rfl⟩
        simp only [isSubseqGreedy, if_pos rfl]
        exact ih as hr

theorem sublist_of_isSubseqGreedy :
    ∀ (n q : List Char), isSubseqGreedy q n = true → List.Sublist q n := by
  intro n
  induction n with
  | nil =>
    intro q h
    match q with
    | [] => exact List.Sublist.refl []
    | a :: as => exact absurd h (by simp [isSubseqGreedy])
  | cons b bs ih =>
    intro q h
    match q with
    | [] => exact List.nil_sublist _
    | a :: as =>
      by_cases hab : a = b
      · subst hab
        simp only [isSubseqGreedy, if_pos rfl] at h
        exact List.cons_sublist_cons.mpr (ih as h)
      · simp only [isSubseqGreedy, if_neg hab] at h
        exact (ih (a :: as) h).cons b

/-- C9: the empty query returns every symbol; a non-empty query returns
exactly the symbols whose name contains the query as a case-insensitive
subsequence. -/
theorem C9_workspace_symbol_search (syms : List SymbolInfo)
    (query : List Char) (s : SymbolInfo) :
    getWorkspaceSymbols [] syms = syms ∧
    (query ≠ [] →
      (s ∈ getWorkspaceSymbols query syms ↔
        s ∈ syms ∧ List.Sublist (lowerList query) (lowerList s.name))) := by
  constructor
  · rfl
  · intro hq
    have hne : query.isEmpty = false := by
      cases query with
      | nil => exact absurd rfl hq
      | cons c cs => rfl
    unfold getWorkspaceSymbols
    rw [hne]
    simp only [Bool.false_eq_true, if_false, List.mem_filter]
    constructor
    · rintro ⟨hmem, hmatch⟩
      exact ⟨hmem, sublist_of_isSubseqGreedy _ _ hmatch⟩
    · rintro ⟨hmem, hsub⟩
      exact ⟨hmem, isSubseqGreedy_of_sublist _ _ hsub⟩

/-- Witness for C9 at a concrete input: query `mul`, one matching symbol. -/
theorem C9_workspace_symbol_search_witness :
    ⟨"multiply".toList, 12, "u"⟩ ∈
      getWorkspaceSymbols "mul".toList [⟨"multiply".toList, 12, "u"⟩] :=
  ((C9_workspace_symbol_search [⟨"multiply".toList, 12, "u"⟩] "mul".toList
    ⟨"multiply".toList, 12, "u"⟩).2 (by decide)).mpr ⟨by decide, by decide⟩


/-! ## Transport framing: C7 and C10 -/

theorem natDigits_all_digit : ∀ (n : Nat), ∀ c ∈ natDigits n, c.isDigit = true := by
  intro n
  induction n using Nat.strong_induction_on with
  | _ n ih =>
    rw [natDigits]
    split
    · rename_i h
      intro c hc
      simp only [List.mem_singleton] at hc
      subst hc
      interval_cases n <;> decide
    · rename_i h
      intro c hc
      rcases List.mem_append.mp hc with hmem | hmem
      · exact ih (n / 10) (Nat.div_lt_self (by omega) (by omega)) c hmem
      · simp only [List.mem_singleton] at hmem
        subst hmem
        have : n % 10 < 10 := Nat.mod_lt _ (by omega)
        interval_cases h10 : n % 10 <;> decide

theorem natDigits_ne_nil (n : Nat) : natDigits n ≠ [] := by
  rw [natDigits]
  split
  · simp
  · simp only [ne_eq, List.append_eq_nil]
    intro hcon
    exact absurd hcon.2 (by simp)

theorem digitsToNat_append (ds : List Char) (c : Char) :
    digitsToNat (ds ++ [c]) = digitsToNat ds * 10 + digitVal c := by
  simp [digitsToNat, List.foldl_append]

theorem digitsToNat_natDigits : ∀ (n : Nat), digitsToNat (natDigits n) = n := by
  intro n
  induction n using Nat.strong_induction_on with
  | _ n ih =>
    rw [natDigits]
    split
    · rename_i h
      simp only [digitsToNat, List.foldl_cons, List.foldl_nil, digitVal]
      have : (Char.ofNat (48 + n)).toNat = 48 + n := by
        interval_cases n <;> decide
      omega
    · rename_i h
      rw [digitsToNat_append, ih (n / 10) (Nat.div_lt_self (by omega) (by omega))]
      have h10 : n % 10 < 10 := Nat.mod_lt _ (by omega)
      have : (Char.ofNat (48 + n % 10)).toNat = 48 + n % 10 := by
        interval_cases hm : n % 10 <;> decide
      simp only [digitVal, this]
      omega

theorem not_isWsChar_of_digit (c : Char) (h : c.isDigit = true) :
    isWsChar c = false := by
  have h1 : c ≠ ' ' := fun he => absurd (he ▸ h) (by decide)
  have h2 : c ≠ '\t' := fun he => absurd (he ▸ h) (by decide)
  have h3 : c ≠ '\n' := fun he => absurd (he ▸ h) (by decide)
  have h4 : c ≠ '\r' := fun he => absurd (he ▸ h) (by decide)
  simp [isWsChar, h1, h2, h3, h4]

theorem ne_cr_of_digit (c : Char) (h : c.isDigit = true) : c ≠ '\r' :=
  fun he => absurd (he ▸ h) (by decide)

theorem header_no_cr (n : Nat) : ∀ c ∈ clPfx ++ natDigits n, c ≠ '\r' := by
  intro c hc
  rcases List.mem_append.mp hc with hmem | hmem
  · have hall : clPfx.all (fun x => decide (x ≠ '\r')) = true := by decide
    simp only [List.all_eq_true, decide_eq_true_eq] at hall
    exact hall c hmem
  · exact ne_cr_of_digit c (natDigits_all_digit n c hmem)

theorem jsParseInt_natDigits (n : Nat) : jsParseInt (natDigits n) = some (n : Int) := by
  have hall := natDigits_all_digit n
  obtain ⟨c, cs, hcs⟩ : ∃ c cs, natDigits n = c :: cs := by
    match h : natDigits n with
    | [] => exact absurd h (natDigits_ne_nil n)
    | c :: cs => exact ⟨c, cs, rfl⟩
  have hcdig : c.isDigit = true := hall c (hcs ▸ List.mem_cons_self c cs)
  have hc1 : c ≠ '-' := fun he => absurd (he ▸ hcdig) (by decide)
  have hc2 : c ≠ '+' := fun he => absurd (he ▸ hcdig) (by decide)
  unfold jsParseInt
  rw [hcs, List.dropWhile_cons_of_neg (by simp [not_isWsChar_of_digit c hcdig])]
  simp only [List.head?_cons, Option.some.injEq]
  have hif1 : (if c = '-' ∨ c = '+' then (c :: cs).tail else c :: cs) = c :: cs := by
    rw [if_neg]
    push_neg
    exact ⟨hc1, hc2⟩
  rw [hif1]
  rw [List.takeWhile_eq_self_iff.mpr (fun x hx => hall x (hcs ▸ hx))]
  rw [if_neg (by simp)]
  rw [if_neg (by simp [hc1])]
  rw [← hcs, digitsToNat_natDigits]

theorem findSub_bound (pat : List Char) :
    ∀ (l : List Char) (i : Nat), findSub pat l = some i → i + pat.length ≤ l.length := by
  intro l
  induction l with
  | nil =>
    intro i h
    simp only [findSub] at h
    split at h
    · rename_i hp
      simp only [Option.some.injEq] at h
      subst h
      simp [List.isEmpty_iff.mp hp]
    · exact absurd h (by simp)
  | cons c rest ih =>
    intro i h
    simp only [findSub] at h
    split at h
    · rename_i hp
      simp only [Option.some.injEq] at h
      subst h
      have := (List.isPrefixOf_iff_prefix.mp hp).length_le
      simpa using this
    · simp only [Option.map_eq_some'] at h
      obtain ⟨j, hj, rfl⟩ := h
      have := ih j hj
      simp only [List.length_cons]
      omega

theorem findSub_short (pat : List Char) (hpat : pat ≠ []) :
    ∀ (t : List Char), t.length < pat.length → findSub pat t = none := by
  intro t
  induction t with
  | nil =>
    intro _
    simp [findSub, List.isEmpty_iff, hpat]
  | cons c rest ih =>
    intro hlt
    simp only [findSub]
    rw [if_neg, ih (by simp at hlt ⊢; omega)]
    · rfl
    · intro hp
      have := (List.isPrefixOf_iff_prefix.mp hp).length_le
      simp only [List.length_cons] at hlt this
      omega

theorem findSub_nil_left (l : List Char) : findSub [] l = some 0 := by
  cases l <;> simp [findSub, List.isPrefixOf]

theorem findSub_append_no_cr :
    ∀ (h t : List Char), (∀ c ∈ h, c ≠ '\r') →
      findSub sepChars (h ++ t) = (findSub sepChars t).map (· + h.length) := by
  intro h
  induction h with
  | nil =>
    intro t _
    simp [Option.map_id']
  | cons c hs ih =>
    intro t hcr
    have hc : c ≠ '\r' := hcr c (List.mem_cons_self c hs)
    have hnp : sepChars.isPrefixOf (c :: (hs ++ t)) = false := by
      simp only [sepChars, List.isPrefixOf]
      rw [Bool.and_eq_false_iff]
      left
      simpa using fun he => hc he.symm
    show findSub sepChars (c :: (hs ++ t)) = _
    simp only [findSub]
    rw [if_neg (by rw [hnp]; simp)]
    rw [ih t (fun x hx => hcr x (List.mem_cons_of_mem c hx))]
    cases findSub sepChars t
    · rfl
    · simp only [Option.map_some', List.length_cons, Nat.add_assoc]

theorem findSub_sep_self (u : List Char) :
    findSub sepChars (sepChars ++ u) = some 0 := by
  have hp : sepChars.isPrefixOf (sepChars ++ u) = true :=
    List.isPrefixOf_iff_prefix.mpr (List.prefix_append _ _)
  have hp' : sepChars.isPrefixOf ('\r' :: ('\n' :: ('\r' :: ('\n' :: u)))) = true := hp
  show (if sepChars.isPrefixOf ('\r' :: ('\n' :: ('\r' :: ('\n' :: u)))) = true then some 0
    else (findSub sepChars ('\n' :: ('\r' :: ('\n' :: u)))).map (· + 1)) = some 0
  rw [if_pos hp']

theorem isPrefixOf_append_of_length_le (pat l ext : List Char)
    (h : pat.length ≤ l.length) :
    pat.isPrefixOf (l ++ ext) = pat.isPrefixOf l := by
  rcases hb : pat.isPrefixOf l with _ | _
  · rcases hb2 : pat.isPrefixOf (l ++ ext) with _ | _
    · rfl
    · exfalso
      have hpre := List.isPrefixOf_iff_prefix.mp hb2
      rw [List.prefix_iff_eq_take] at hpre
      rw [List.take_append_of_le_length h] at hpre
      have : pat.isPrefixOf l = true := by
        rw [List.isPrefixOf_iff_prefix, List.prefix_iff_eq_take]
        exact hpre
      rw [this] at hb
      exact absurd hb (by simp)
  · have hpre := List.isPrefixOf_iff_prefix.mp hb
    rw [List.isPrefixOf_iff_prefix]
    exact hpre.trans (List.prefix_append _ _)

theorem findSub_append_ext (pat : List Char) :
    ∀ (l : List Char) (i : Nat) (ext : List Char),
      findSub pat l = some i → findSub pat (l ++ ext) = some i := by
  intro l
  induction l with
  | nil =>
    intro i ext h
    simp only [findSub] at h
    split at h
    · rename_i hp
      simp only [Option.some.injEq] at h
      subst h
      simp [List.isEmpty_iff.mp hp, findSub_nil_left]
    · exact absurd h (by simp)
  | cons c rest ih =>
    intro i ext h
    simp only [findSub] at h
    split at h
    · rename_i hp
      simp only [Option.some.injEq] at h
      subst h
      simp only [List.cons_append, findSub]
      rw [if_pos]
      have hpre := List.isPrefixOf_iff_prefix.mp hp
      exact List.isPrefixOf_iff_prefix.mpr (hpre.trans
        (List.prefix_append (c :: rest) ext))
    · rename_i hp
      simp only [Option.map_eq_some'] at h
      obtain ⟨j, hj, rfl⟩ := h
      have hlen : pat.length ≤ (c :: rest).length := by
        have := findSub_bound pat rest j hj
        simp only [List.length_cons]
        omega
      simp only [List.cons_append, findSub]
      rw [if_neg]
      · rw [show rest.append ext = rest ++ ext from rfl, ih j ext hj]
        rfl
      · intro hcon
        apply hp
        have heq := isPrefixOf_append_of_length_le pat (c :: rest) ext hlen
        simp only [List.cons_append] at heq
        rw [← heq]
        exact hcon


theorem tryParse_encode_append (b rest : List Char) :
    tryParse (encode b ++ rest) = some (b, rest) := by
  have hbuf : encode b ++ rest
      = (clPfx ++ natDigits b.length) ++ (sepChars ++ (b ++ rest)) := by
    simp [encode]
  rw [hbuf]
  have hfind : findSub sepChars
      ((clPfx ++ natDigits b.length) ++ (sepChars ++ (b ++ rest)))
      = some (clPfx ++ natDigits b.length).length := by
    rw [findSub_append_no_cr _ _ (header_no_cr b.length), findSub_sep_self]
    simp
  have hpre : clPfx.isPrefixOf (clPfx ++ natDigits b.length) = true :=
    List.isPrefixOf_iff_prefix.mpr (List.prefix_append _ _)
  have hlenbuf : ((clPfx ++ natDigits b.length) ++ (sepChars ++ (b ++ rest))).length
      = (clPfx ++ natDigits b.length).length + (4 + (b.length + rest.length)) := by
    simp [sepChars]
    omega
  have hcond : ¬ ((((clPfx ++ natDigits b.length) ++ (sepChars ++ (b ++ rest))).length : Int)
      < (((clPfx ++ natDigits b.length).length + 4 : Nat) : Int) + (b.length : Int)) := by
    rw [hlenbuf]
    push_cast
    omega
  have hdrop4 : ((clPfx ++ natDigits b.length) ++ (sepChars ++ (b ++ rest))).drop
      ((clPfx ++ natDigits b.length).length + 4) = b ++ rest := by
    rw [show (clPfx ++ natDigits b.length) ++ (sepChars ++ (b ++ rest))
        = ((clPfx ++ natDigits b.length) ++ sepChars) ++ (b ++ rest) by simp]
    refine List.drop_left' ?_
    simp [sepChars]
    omega
  have harg : ((((clPfx ++ natDigits b.length).length + 4 : Nat) : Int)
      + (b.length : Int)).toNat = (clPfx ++ natDigits b.length).length + 4 + b.length := by
    omega
  have hrest : ((clPfx ++ natDigits b.length) ++ (sepChars ++ (b ++ rest))).drop
      (((((clPfx ++ natDigits b.length).length + 4 : Nat) : Int) + (b.length : Int)).toNat)
      = rest := by
    rw [harg]
    rw [show (clPfx ++ natDigits b.length) ++ (sepChars ++ (b ++ rest))
        = (((clPfx ++ natDigits b.length) ++ sepChars) ++ b) ++ rest by simp]
    refine List.drop_left' ?_
    simp [sepChars]
    omega
  simp only [tryParse, hfind]
  rw [List.take_left]
  rw [if_neg (by rw [hpre]; simp)]
  rw [List.drop_left]
  rw [jsParseInt_natDigits]
  dsimp only
  rw [if_neg hcond]
  rw [hdrop4, hrest, Int.toNat_natCast, List.take_left]


theorem tryParse_strict_prefix_none (b pre : List Char)
    (hpre : pre <+: encode b) (hne : pre ≠ encode b) : tryParse pre = none := by
  have hed : encode b = (clPfx ++ natDigits b.length) ++ (sepChars ++ b) := by
    simp [encode]
  obtain ⟨n, hn⟩ : ∃ n, pre.length = n := ⟨pre.length, rfl⟩
  have hpre_eq : pre = (encode b).take n := by
    rw [← hn]
    exact List.prefix_iff_eq_take.mp hpre
  have hle := hpre.length_le
  have hlt : n < (encode b).length := by
    rcases Nat.lt_or_ge n (encode b).length with h | h
    · exact h
    · exact absurd (hpre.eq_of_length (by omega)) hne
  have hlen_encode : (encode b).length
      = (clPfx ++ natDigits b.length).length + (4 + b.length) := by
    rw [hed]
    simp only [List.length_append, sepChars, List.length_cons, List.length_nil]
  by_cases hsmall : n ≤ (clPfx ++ natDigits b.length).length + 3
  · simp only [List.length_append] at hsmall hlen_encode
    have hsplit : pre = (clPfx ++ natDigits b.length).take n ++
        (sepChars ++ b).take (n - (clPfx ++ natDigits b.length).length) := by
      rw [hpre_eq, hed]
      exact List.take_append_eq_append_take
    have htshort : ((sepChars ++ b).take
        (n - (clPfx ++ natDigits b.length).length)).length < sepChars.length := by
      simp only [List.length_take, sepChars, List.length_cons, List.length_nil,
        List.length_append]
      omega
    have hfnone : findSub sepChars pre = none := by
      rw [hsplit, findSub_append_no_cr _ _
        (fun c hc => header_no_cr b.length c (List.mem_of_mem_take hc)),
        findSub_short sepChars (by simp [sepChars]) _ htshort]
      rfl
    unfold tryParse
    rw [hfnone]
  · push_neg at hsmall
    simp only [List.length_append] at hsmall hlen_encode
    have hsplit : pre = (clPfx ++ natDigits b.length) ++
        (sepChars ++ b.take (n - (clPfx ++ natDigits b.length).length - 4)) := by
      rw [hpre_eq, hed]
      rw [List.take_append_eq_append_take,
        List.take_of_length_le (by simp only [List.length_append]; omega)]
      congr 1
      rw [List.take_append_eq_append_take,
        List.take_of_length_le (by
          simp only [sepChars, List.length_cons, List.length_nil,
            List.length_append]
          omega)]
      congr 2
    have hpfx : clPfx.isPrefixOf (clPfx ++ natDigits b.length) = true :=
      List.isPrefixOf_iff_prefix.mpr (List.prefix_append _ _)
    rw [hsplit]
    have hfind : findSub sepChars ((clPfx ++ natDigits b.length) ++
        (sepChars ++ b.take (n - (clPfx ++ natDigits b.length).length - 4)))
        = some (clPfx ++ natDigits b.length).length := by
      rw [findSub_append_no_cr _ _ (header_no_cr b.length), findSub_sep_self]
      simp
    simp only [tryParse, hfind]
    rw [List.take_left]
    rw [if_neg (by rw [hpfx]; simp)]
    rw [List.drop_left, jsParseInt_natDigits]
    dsimp only
    rw [if_pos (by
      simp only [List.length_append, sepChars, List.length_cons,
        List.length_nil, List.length_take]
      rw [hlen_encode] at hlt
      push_cast
      omega)]

theorem drainAll_encode (bodies : List (List Char)) :
    drainAll bodies.length ((bodies.map encode).flatten) = (bodies, []) := by
  induction bodies with
  | nil => rfl
  | cons b bs ih =>
    show drainAll (bs.length + 1) (encode b ++ (bs.map encode).flatten) = (b :: bs, [])
    simp only [drainAll, tryParse_encode_append, ih]

/-- C7: framing round-trip — `tryParse(encode(m))` yields `m`'s body with an
empty remainder; a concatenation of encoded messages is drained in order
with an empty final remainder (each step returning the next body and the
untouched tail); and every strict prefix of a valid encoded message yields
`need-more`.  Message bodies stand for `JSON.stringify(m)`, whose decoding
by `JSON.parse` on the receiving side is the serialization library's
inverse. -/
theorem C7_transport_roundtrip (b rest pre : List Char)
    (bodies : List (List Char)) :
    tryParse (encode b) = some (b, []) ∧
    tryParse (encode b ++ rest) = some (b, rest) ∧
    drainAll bodies.length ((bodies.map encode).flatten) = (bodies, []) ∧
    (pre <+: encode b → pre ≠ encode b → tryParse pre = none) := by
  refine ⟨?_, tryParse_encode_append b rest, drainAll_encode bodies,
    tryParse_strict_prefix_none b pre⟩
  have h := tryParse_encode_append b []
  rwa [List.append_nil] at h

/-- Witness for C7 at a concrete input. -/
theorem C7_transport_roundtrip_witness :
    tryParse ((encode "ab".toList).take 5) = none :=
  (C7_transport_roundtrip "ab".toList [] ((encode "ab".toList).take 5) []).2.2.2
    (List.take_prefix 5 (encode "ab".toList)) (by decide)

theorem tryParse_none_of_bad_header (buf : List Char) (i : Nat)
    (hfind : findSub sepChars buf = some i)
    (hbad : clPfx.isPrefixOf (buf.take i) = false ∨
      jsParseInt ((buf.take i).drop clPfx.length) = none) :
    tryParse buf = none := by
  simp only [tryParse, hfind]
  rcases hbad with hb | hb
  · rw [if_pos (by rw [hb]; simp)]
  · by_cases hpf : clPfx.isPrefixOf (buf.take i) = true
    · rw [if_neg (by rw [hpf]; simp), hb]
    · rw [if_pos hpf]

/-- C10: a buffer whose first complete header section (terminated by
`\r\n\r\n`) does not begin with `Content-Length: `, or whose length field
does not parse as a number, makes `tryParse` return `need-more` without
consuming anything — and appending further input can never change this
(the first header stays the same), so the read loop stalls on it
permanently. -/
theorem C10_malformed_header_stalls (buf extra : List Char) (i : Nat)
    (hfind : findSub sepChars buf = some i)
    (hbad : clPfx.isPrefixOf (buf.take i) = false ∨
      jsParseInt ((buf.take i).drop clPfx.length) = none) :
    tryParse buf = none ∧ tryParse (buf ++ extra) = none := by
  refine ⟨tryParse_none_of_bad_header buf i hfind hbad, ?_⟩
  have hbound := findSub_bound sepChars buf i hfind
  have htake : (buf ++ extra).take i = buf.take i :=
    List.take_append_of_le_length (by simp [sepChars] at hbound; omega)
  refine tryParse_none_of_bad_header (buf ++ extra) i
    (findSub_append_ext sepChars buf i extra hfind) ?_
  rw [htake]
  exact hbad

/-- Witness for C10 at a concrete input: a complete but malformed header. -/
theorem C10_malformed_header_stalls_witness :
    tryParse ("X-Foo: 3\r\n\r\nabc".toList ++ "more".toList) = none :=
  (C10_malformed_header_stalls "X-Foo: 3\r\n\r\nabc".toList "more".toList 8
    (by decide) (Or.inl (by decide))).2


/-! ## Reference engine: C2 (dedup), C1 (trimmed ranges), C3 (resolution
order), C6 (goto-definition ranges) -/

theorem dedupGo_not_seen :
    ∀ (ls : List Location) (seen : List (String × Int × Int)) (l : Location),
      l ∈ dedupGo seen ls → locKey l ∉ seen := by
  intro ls
  induction ls with
  | nil =>
    intro seen l h
    simp [dedupGo] at h
  | cons x rest ih =>
    intro seen l h
    simp only [dedupGo] at h
    split at h
    · exact ih seen l h
    · rename_i hx
      rcases List.mem_cons.mp h with rfl | hmem
      · exact hx
      · have hni := ih _ l hmem
        intro hcon
        exact hni (List.mem_cons_of_mem _ hcon)

theorem dedupGo_pairwise :
    ∀ (ls : List Location) (seen : List (String × Int × Int)),
      (dedupGo seen ls).Pairwise (fun a b => locKey a ≠ locKey b) := by
  intro ls
  induction ls with
  | nil =>
    intro seen
    simp [dedupGo]
  | cons x rest ih =>
    intro seen
    simp only [dedupGo]
    split
    · exact ih seen
    · refine List.Pairwise.cons ?_ (ih _)
      intro b hb hcon
      have hni := dedupGo_not_seen rest (locKey x :: seen) b hb
      apply hni
      rw [← hcon]
      exact List.mem_cons_self _ _

/-- C2: `findReferences` deduplicates by `(uri, startLine, startCharacter)`,
so its result never contains two Locations with the same key; moreover one
unqualified `functionOrValue` occurrence contributes at most one Location —
the explicit-exposing and open-import checks are an else-if chain, not two
pushes. -/
theorem C2_references_no_duplicates (files : List WorkspaceFile)
    (target : SymbolIdentity) (includeDecl : Bool) (range : ERange)
    (name uri fileMod : String) (tracker : ImportTracker) :
    (findReferencesFromIdentity files target includeDecl).Pairwise
      (fun a b => locKey a ≠ locKey b) ∧
    (collectRefsInExpr ⟨range, .functionOrValue [] name⟩ uri target tracker
      fileMod).length ≤ 1 := by
  constructor
  · exact dedupGo_pairwise _ []
  · simp only [collectRefsInExpr, List.length_nil]
    split_ifs <;> simp

/-- C1 (amended): qualified `functionOrValue` occurrences are pushed with
the trimmed name range — start column shifted by the dotted-qualifier
length, spanning exactly `name.length` columns — and exposing-list items
with a name-length range at the item's start; these two trims make the
slice under those ranges the bare name.  (Constructor-pattern occurrences,
by contrast, use the whole pattern's range — see the counterexample.) -/
theorem C1_trimmed_name_ranges (r : ERange) (mp : List String)
    (name uri : String) (target : SymbolIdentity) (tracker : ImportTracker)
    (fileMod : String) (e : Option Exposing) (loc : Location) :
    ((nameRangeOfQualifiedExpr r mp name).startRow = r.startRow ∧
     (nameRangeOfQualifiedExpr r mp name).startCol
        = r.startCol + ((joinDots mp ++ ".").length : Int) ∧
     (nameRangeOfQualifiedExpr r mp name).endCol
        - (nameRangeOfQualifiedExpr r mp name).startCol + 1
        = (name.length : Int)) ∧
    ((nameRangeOfExposed r name).startRow = r.startRow ∧
     (nameRangeOfExposed r name).endRow = r.startRow ∧
     (nameRangeOfExposed r name).startCol = r.startCol ∧
     (nameRangeOfExposed r name).endCol - (nameRangeOfExposed r name).startCol
        + 1 = (name.length : Int)) ∧
    (mp ≠ [] →
      collectRefsInExpr ⟨r, .functionOrValue mp name⟩ uri target tracker fileMod
        = if name = target.name ∧
            target.defModule ∈ aliasResolve tracker (joinDots mp)
          then [⟨uri, elmRangeToLsp (nameRangeOfQualifiedExpr r mp name)⟩]
          else []) ∧
    (loc ∈ exposingRefs e uri target →
      ∃ itemRange, loc.range = elmRangeToLsp
        (nameRangeOfExposed itemRange target.name)) := by
  refine ⟨⟨rfl, rfl, by simp [nameRangeOfQualifiedExpr]; ring⟩,
    ⟨rfl, rfl, rfl, by simp [nameRangeOfExposed]; ring⟩, ?_, ?_⟩
  · intro hmp
    match mp with
    | [] => exact absurd rfl hmp
    | m :: ms =>
      by_cases h1 : name = target.name <;>
        by_cases h2 : target.defModule ∈ aliasResolve tracker (joinDots (m :: ms)) <;>
        simp [collectRefsInExpr, h1, h2]
  · intro hmem
    match e with
    | none => exact absurd hmem (by simp [exposingRefs])
    | some (.all ra) => exact absurd hmem (by simp [exposingRefs])
    | some (.explicit items) =>
      unfold exposingRefs at hmem
      rw [List.mem_flatMap] at hmem
      obtain ⟨ex, _, hloc⟩ := hmem
      revert hloc
      split
      · intro hloc
        rcases List.mem_singleton.mp hloc with rfl
        exact ⟨ex.range, rfl⟩
      · intro hloc
        exact absurd hloc (by simp)

/-- C1 counterexample: a constructor reference inside a case pattern is
returned with the *whole pattern's* range (`MyCtor y`, twelve columns), so
the slice under that range is not the six-character constructor name —
refuting the claim that the slice under every returned range equals the
symbol's name. -/
theorem C1_trimmed_name_ranges_counterexample :
    collectRefsInFile c1Ast "file:///M.elm" c1Target "M"
      = [⟨"file:///M.elm", ⟨⟨4, 4⟩, ⟨4, 15⟩⟩⟩] ∧
    ((15 : Int) - 4 + 1 ≠ (("MyCtor".length : Nat) : Int)) :=
  ⟨by decide, by decide⟩

/-- Witness for C1 at concrete inputs: a qualified occurrence
`Helpers.add` and a `Msg(..)` exposing item. -/
theorem C1_trimmed_name_ranges_witness :
    (collectRefsInExpr ⟨⟨2, 5, 2, 15⟩, .functionOrValue ["Helpers"] "add"⟩ "u"
        ⟨"Helpers", "add", .valueK⟩ emptyTracker "Main"
      = if "add" = (⟨"Helpers", "add", .valueK⟩ : SymbolIdentity).name ∧
          (⟨"Helpers", "add", .valueK⟩ : SymbolIdentity).defModule ∈
            aliasResolve emptyTracker (joinDots ["Helpers"])
        then [⟨"u", elmRangeToLsp
            (nameRangeOfQualifiedExpr ⟨2, 5, 2, 15⟩ ["Helpers"] "add")⟩]
        else []) ∧
    (∃ itemRange,
      (⟨"u", elmRangeToLsp (nameRangeOfExposed ⟨1, 25, 1, 31⟩ "Msg")⟩
        : Location).range
        = elmRangeToLsp (nameRangeOfExposed itemRange
            ((⟨"M", "Msg", .typeK⟩ : SymbolIdentity).name))) :=
  ⟨(C1_trimmed_name_ranges ⟨2, 5, 2, 15⟩ ["Helpers"] "add" "u"
      ⟨"Helpers", "add", .valueK⟩ emptyTracker "Main" none
      ⟨"u", elmRangeToLsp (nameRangeOfExposed ⟨1, 25, 1, 31⟩ "Msg")⟩).2.2.1
      (by decide),
   (C1_trimmed_name_ranges ⟨2, 5, 2, 15⟩ ["M"] "Msg" "u"
      ⟨"M", "Msg", .typeK⟩ emptyTracker "Main"
      (some (.explicit [⟨⟨1, 25, 1, 31⟩, .typeExpose "Msg" ⟨1, 28, 1, 31⟩⟩]))
      ⟨"u", elmRangeToLsp (nameRangeOfExposed ⟨1, 25, 1, 31⟩ "Msg")⟩).2.2.2
      (by decide)⟩

theorem findInImportExposing_none (pos : LspPos) :
    ∀ (imports : List ImportData),
      (∀ imp ∈ imports, ∀ items,
        imp.exposingList = some (Exposing.explicit items) →
        ∀ ex ∈ items, posInRange pos ex.range = false) →
      findInImportExposing imports pos = none := by
  intro imports
  induction imports with
  | nil => intro _; rfl
  | cons imp rest ih =>
    intro h
    have hrest : findInImportExposing rest pos = none :=
      ih (fun i hi => h i (List.mem_cons_of_mem _ hi))
    show findInImportExposing (imp :: rest) pos = none
    cases hexp : imp.exposingList with
    | none =>
      simp only [findInImportExposing, hexp]
      exact hrest
    | some ex0 =>
      cases ex0 with
      | all ra =>
        simp only [findInImportExposing, hexp]
        exact hrest
      | explicit items =>
        have hfind : items.find? (fun ex => posInRange pos ex.range) = none :=
          List.find?_eq_none.mpr (fun ex hex => by
            simp [h imp (List.mem_cons_self imp rest) items hexp ex hex])
        simp only [findInImportExposing, hexp, hfind]
        exact hrest

theorem resolveInDecls_none (env : String → Option Ast) (ast : Ast)
    (pos : LspPos) (tracker : ImportTracker) (cur : String) :
    ∀ (ds : List NDecl), (∀ d ∈ ds, posInRange pos d.range = false) →
      resolveInDecls env ast pos tracker cur ds = none := by
  intro ds
  induction ds with
  | nil => intro _; rfl
  | cons d rest ih =>
    intro h
    have hd := h d (List.mem_cons_self d rest)
    simp only [resolveInDecls]
    rw [if_pos (by simp [hd])]
    exact ih (fun x hx => h x (List.mem_cons_of_mem _ hx))

/-- C3 (amended): the identity resolver's first step is the *import*
exposing lists; it has no module-header step at all.  When the position is
outside every import-exposing item and outside every declaration — in
particular when it sits inside the module's own header exposing list — the
resolver returns none rather than `(currentModule, name, kind)`. -/
theorem C3_resolver_skips_module_header (env : String → Option Ast)
    (ast : Ast) (pos : LspPos)
    (himp : ∀ imp ∈ ast.imports, ∀ items,
      imp.exposingList = some (Exposing.explicit items) →
      ∀ ex ∈ items, posInRange pos ex.range = false)
    (hdecl : ∀ d ∈ ast.declarations, posInRange pos d.range = false) :
    resolveSymbolAtPosition env ast pos = none := by
  unfold resolveSymbolAtPosition
  rw [findInImportExposing_none pos ast.imports himp]
  exact resolveInDecls_none env ast pos (createImportTracker ast)
    (toModuleName ast) ast.declarations hdecl

/-- C3 counterexample: with the cursor inside the module's own header
exposing item `bar` of module `Foo`, the resolver returns none — not the
claimed identity `(Foo, bar, value)` — because it never inspects the
module header. -/
theorem C3_resolver_skips_module_header_counterexample :
    (match c3Ast.moduleData.exposingList with
     | .explicit items => items.any (fun ex => posInRange c3Pos ex.range)
     | _ => false) = true ∧
    resolveSymbolAtPosition env0 c3Ast c3Pos = none ∧
    resolveSymbolAtPosition env0 c3Ast c3Pos
      ≠ some ⟨"Foo", "bar", .valueK⟩ :=
  ⟨by decide, by decide, by decide⟩

/-- Witness for C3 at the concrete fixture. -/
theorem C3_resolver_skips_module_header_witness :
    resolveSymbolAtPosition env0 c3Ast c3Pos = none :=
  C3_resolver_skips_module_header env0 c3Ast c3Pos
    (by
      intro imp hmem
      exact absurd hmem (by simp [c3Ast]))
    (by
      intro d hd
      simp only [c3Ast, List.mem_singleton] at hd
      subst hd
      decide)

/-- C6 (amended): every Location returned by `findInModule` uses the
resolved *declaration node's* full range (or, for a variant hit, the
constructor node's range) — the name node's range is never used. -/
theorem C6_goto_definition_range (uri : String) (ast : Ast) (name : String)
    (loc : Location) (h : findInModuleModel uri ast name = some loc) :
    (∃ d, findDeclarationWithName ast name = some d ∧
      loc = ⟨uri, elmRangeToLsp d.range⟩) ∨
    (findDeclarationWithName ast name = none ∧
      ∃ p, findCustomTypeVariantWithName ast name = some p ∧
        loc = ⟨uri, elmRangeToLsp p.2.range⟩) := by
  unfold findInModuleModel at h
  split at h
  · exact absurd h (by simp)
  · split at h
    · rename_i d hd
      simp only [Option.some.injEq] at h
      exact Or.inl ⟨d, hd, h.symm⟩
    · rename_i hd
      split at h
      · rename_i pfst ctor hp
        simp only [Option.some.injEq] at h
        exact Or.inr ⟨hd, ⟨pfst, ctor⟩, hp, h.symm⟩
      · exact absurd h (by simp)

/-- C6 counterexample: for `f` in the fixture module, a name node is
available (columns 1-2 of line 3) but goto-definition returns the
declaration's full range (lines 3-4), which differs from the name node's
range — refuting the claim. -/
theorem C6_goto_definition_range_counterexample :
    findInModuleModel "file:///M.elm" c6Ast "f"
      = some ⟨"file:///M.elm", elmRangeToLsp ⟨3, 1, 4, 10⟩⟩ ∧
    (c6Ast.declarations.head?.bind (fun d => getDeclNameNode d.val))
      = some ⟨⟨3, 1, 3, 2⟩, "f"⟩ ∧
    elmRangeToLsp ⟨3, 1, 4, 10⟩ ≠ elmRangeToLsp ⟨3, 1, 3, 2⟩ :=
  ⟨by decide, by decide, by decide⟩

/-- Witness for C6 at the concrete fixture. -/
theorem C6_goto_definition_range_witness :
    (∃ d, findDeclarationWithName c6Ast "f" = some d ∧
      (⟨"file:///M.elm", elmRangeToLsp ⟨3, 1, 4, 10⟩⟩ : Location)
        = ⟨"file:///M.elm", elmRangeToLsp d.range⟩) ∨
    (findDeclarationWithName c6Ast "f" = none ∧
      ∃ p, findCustomTypeVariantWithName c6Ast "f" = some p ∧
        (⟨"file:///M.elm", elmRangeToLsp ⟨3, 1, 4, 10⟩⟩ : Location)
          = ⟨"file:///M.elm", elmRangeToLsp p.2.range⟩) :=
  C6_goto_definition_range "file:///M.elm" c6Ast "f"
    ⟨"file:///M.elm", elmRangeToLsp ⟨3, 1, 4, 10⟩⟩ (by decide)

end ElmLsp
